import Mathlib

/-!
DDHGCalPassivePartial: the passive part of a partial silicon module.

A shallow embedding of the constructor `HGCalPassivePartial::HGCalPassivePartial`
of `Geometry/HGCalCommonData/plugins/dd4hep/DDHGCalPassivePartial.cc`, and
theorems about it.

Conventions of the embedding.

* `double` is the field `ℚ`: all arithmetic is exact.  The section on double
  precision gives the thickness accumulator and the thickness check a second
  time with binary64 rounding, to show where exactness matters.
* `std::vector<T>` is `List T`.  Every `operator[]` whose index is not bounded
  by the loop guard of the very vector it reads goes through `idx` / `setAt`,
  which return `Err.outOfRange` where the C++ has undefined behaviour.
* `unsigned int i = layerType[l]` wraps modulo `2^32` (`toIndex`).
  The loop counters `k`, `m`, `l`, `i` are `unsigned int` as well; vectors are
  taken to have fewer than `2^32` elements, so that the counters do not wrap,
  and `copyNumber` (an `int`) is taken not to overflow.
* The registry (`cms::DDNamespace`) and the message logger are write-only for
  this algorithm.  What one variant sends to them is recorded in the
  `Variant` structure, grouped by the statement that issues it: the mother
  solid and volume, one `LayerRec` per iteration of the layer loop, and the
  diagnostics.
* `HGCalWaferMask::waferXY` and `DDNamespace::prepend` are not part of this file
  of the repository; they are the fields of `Services`.
  `ns.material(name)` is represented by the material's name.
-/

namespace HGCalPassivePartial

/-! ## Data model -/

/-- The failure of the bounds-checked embedding. -/
inductive Err where
  | outOfRange
  deriving DecidableEq, Repr

/-- Bounds-checked `xs[i]` (read). -/
def idx {α : Type} (xs : List α) (i : Nat) : Except Err α :=
  match xs[i]? with
  | some x => .ok x
  | none => .error .outOfRange

/-- Bounds-checked `xs[i] = v` (write). -/
def setAt {α : Type} (xs : List α) (i : Nat) (v : α) : Except Err (List α) :=
  if i < xs.length then .ok (xs.set i v) else .error .outOfRange

/-- The external collaborators: `HGCalWaferMask::waferXY(partial, placement,
waferSize, offset, xpos, ypos)` and `cms::DDNamespace::prepend(name)`. -/
structure Services where
  waferXY : Int → Int → ℚ → ℚ → ℚ → ℚ → List (ℚ × ℚ)
  prepend : String → String

/-- The values read from `cms::DDAlgoArguments` (lines 30-61). -/
structure Args where
  parentName : String
  material : String
  thick : ℚ
  waferSize : ℚ
  waferSepar : ℚ
  tags : List String
  partialTypes : List Int
  placementIndex : List Int
  placementIndexTags : List String
  layerNames : List String
  materials : List String
  layerThick : List ℚ
  layerType : List Int

/-- A `dd4hep::ExtrudedPolygon`: the polygon `x`, `y`, and per z-plane the
position `z`, the offsets `zx`, `zy` and the scale `zscale`. -/
structure Solid where
  name : String
  x : List ℚ
  y : List ℚ
  z : List ℚ
  zx : List ℚ
  zy : List ℚ
  zscale : List ℚ
  deriving DecidableEq, Repr

/-- The constructor `dd4hep::ExtrudedPolygon(x, y, z, zx, zy, zscale)`; the
solid has no name until it is registered. -/
def ExtrudedPolygon (x y z zx zy zscale : List ℚ) : Solid :=
  { name := "", x := x, y := y, z := z, zx := zx, zy := zy, zscale := zscale }

/-- The effect of `ns.addSolidNS(name, solid)` on the solid: it is registered
under `name` and carries that name from then on (`solid.name()`). -/
def addSolidNS (name : String) (solid : Solid) : Solid :=
  { solid with name := name }

/-- A `dd4hep::Volume(name, solid, material)`. -/
structure Volume where
  name : String
  solid : Solid
  material : String
  deriving DecidableEq, Repr

/-- One call `parent.placeVolume(child, copyNo, tran)`.  `child` is `none` for
a default-constructed (invalid) `dd4hep::Volume` handle. -/
structure Placement where
  parent : Volume
  child : Option Volume
  copyNo : Int
  tran : ℚ × ℚ × ℚ
  deriving DecidableEq, Repr

/-- What one iteration of the layer loop (lines 106-136) sends to the
registry: for layer type `i`, the solid and the volume registered in the
`if (copyNumber[i] == 1)` block (lines 113 and 116), when it is entered, and
the placement of line 128. -/
structure LayerRec where
  i : Nat
  solid : Option Solid
  volume : Option Volume
  place : Placement
  deriving DecidableEq, Repr

/-- The messages of lines 139 and 142, with the two numbers they print. -/
inductive Diag where
  | error (thick thickTot : ℚ)
  | warning (thick thickTot : ℚ)
  deriving DecidableEq, Repr

/-- The local variables that the layer loop reads and writes, and the
records of the iterations done so far. -/
structure LoopState where
  zw : List ℚ
  solid : Solid
  matter : String
  glogs : List (Option Volume)
  copyNumber : List Int
  zi : ℚ
  thickTot : ℚ
  layers : List LayerRec
  deriving DecidableEq, Repr

/-- All that one pass of the body of the `(k, m)` loop (lines 76-145)
produces: the mother, the state in which the layer loop ends, and the
diagnostics. -/
structure Variant where
  mother : String
  xM : List ℚ
  yM : List ℚ
  glogM : Volume
  final : LoopState
  diag : List Diag
  deriving DecidableEq, Repr

/-! ## The algorithm -/

/-- Line 71, as the exact number `1e-5` (`tolDouble` is the `double`). -/
def tol : ℚ := 0.00001

/-- The conversion of line 107, `unsigned int i = layerType[l]`. -/
def toIndex (t : Int) : Nat := (t % 2 ^ 32).toNat

/-- The loop of lines 81-84 at counter `i`, with `rest` the part of `wxy` from
position `i` on: while `i < bound`, `wxy[i]` is read (out of range when `rest`
is exhausted) and appended to `xM`, `yM`. -/
def fillXYLoop (bound : Nat) : List (ℚ × ℚ) → Nat → List ℚ → List ℚ → Except Err (List ℚ × List ℚ)
  | [], i, xM, yM => if i < bound then .error .outOfRange else .ok (xM, yM)
  | p :: rest, i, xM, yM =>
    if i < bound then fillXYLoop bound rest (i + 1) (xM ++ [p.1]) (yM ++ [p.2]) else .ok (xM, yM)

/-- Lines 80-84.  The bound `wxy.size() - 1` is computed in `size_t`: for an
empty `wxy` it is `2^64 - 1`. -/
def fillXY (wxy : List (ℚ × ℚ)) : Except Err (List ℚ × List ℚ) :=
  fillXYLoop ((wxy.length + 2 ^ 64 - 1) % 2 ^ 64) wxy 0 [] []

/-- The body of the layer loop, lines 107-135, for the entry `t = layerType[l]`.
The sums of lines 127, 134 and 135 are exact (`thickTotDouble` is the rounded
accumulator). -/
def layerStep (S : Services) (a : Args) (mother : String) (xM yM zx zy scale : List ℚ)
    (glogM : Volume) (st : LoopState) (t : Int) : Except Err LoopState := do
  let i := toIndex t
  let c ← idx st.copyNumber i
  let st1 ← (if c = 1 then do
      let t0 ← idx a.layerThick i
      let zw0 := st.zw.set 0 (-0.5 * t0)
      let t1 ← idx a.layerThick i
      let zw1 := zw0.set 1 (0.5 * t1)
      let nm ← idx a.layerNames i
      let layerName := mother ++ nm
      let solid := addSolidNS (S.prepend layerName) (ExtrudedPolygon xM yM zw1 zx zy scale)
      let matter ← idx a.materials i
      let g : Volume := { name := solid.name, solid := solid, material := matter }
      let glogs ← setAt st.glogs i (some g)
      pure ({ st with zw := zw1, solid := solid, matter := matter, glogs := glogs },
            some solid, some g)
    else pure (st, none, none) : Except Err (LoopState × Option Solid × Option Volume))
  let s := st1.1
  let th ← idx a.layerThick i
  let tran : ℚ × ℚ × ℚ := (0, 0, s.zi + 0.5 * th)
  let g ← idx s.glogs i
  let cn ← idx s.copyNumber i
  let rec_ : LayerRec :=
    { i := i, solid := st1.2.1, volume := st1.2.2,
      place := { parent := glogM, child := g, copyNo := cn, tran := tran } }
  let cn1 ← idx s.copyNumber i
  let copyNumber ← setAt s.copyNumber i (cn1 + 1)
  let th1 ← idx a.layerThick i
  let th2 ← idx a.layerThick i
  pure { s with copyNumber := copyNumber, zi := s.zi + th1, thickTot := s.thickTot + th2,
                layers := s.layers ++ [rec_] }

/-- Lines 137-145: the thickness check after the layer loop, in exact
arithmetic (`validateDouble` rounds as the code does). -/
def validate (thick thickTot : ℚ) (layerType : List Int) : List Diag :=
  if |thickTot - thick| ≥ tol ∧ ¬ layerType.isEmpty then
    if thickTot > thick then [Diag.error thick thickTot] else [Diag.warning thick thickTot]
  else []

/-- The body of the `(k, m)` loop, lines 76-145. -/
def variant (S : Services) (a : Args) (k m : Nat) : Except Err Variant := do
  let ptag ← idx a.placementIndexTags m
  let tag ← idx a.tags k
  let mother := a.parentName ++ ptag ++ tag
  let ptype ← idx a.partialTypes k
  let pidx ← idx a.placementIndex m
  let wxy := S.waferXY ptype pidx (a.waferSize + a.waferSepar) 0 0 0
  let xy ← fillXY wxy
  let zw : List ℚ := [-0.5 * a.thick, 0.5 * a.thick]
  let zx : List ℚ := List.replicate 2 0
  let zy : List ℚ := List.replicate 2 0
  let scale : List ℚ := List.replicate 2 1
  let solid := addSolidNS (S.prepend mother) (ExtrudedPolygon xy.1 xy.2 zw zx zy scale)
  let matter := a.material
  let glogM : Volume := { name := solid.name, solid := solid, material := matter }
  let glogs : List (Option Volume) := List.replicate a.materials.length none
  let copyNumber : List Int := List.replicate a.materials.length 1
  let st ← a.layerType.foldlM (layerStep S a mother xy.1 xy.2 zx zy scale glogM)
    { zw := zw, solid := solid, matter := matter, glogs := glogs, copyNumber := copyNumber,
      zi := -0.5 * a.thick, thickTot := 0, layers := [] }
  pure { mother := mother, xM := xy.1, yM := xy.2, glogM := glogM, final := st,
         diag := validate a.thick st.thickTot a.layerType }

/-- The loop over `m`, line 75, for a fixed `k`: the variants built so far are
`acc`. -/
def placementLoop (S : Services) (a : Args) (k : Nat) (acc : List Variant) :
    Except Err (List Variant) :=
  (List.range a.placementIndex.length).foldlM
    (fun acc m => do let v ← variant S a k m; pure (acc ++ [v])) acc

/-- The constructor, lines 74-147: the variants in the order in which they are
built. -/
def construct (S : Services) (a : Args) : Except Err (List Variant) :=
  (List.range a.tags.length).foldlM (fun acc k => placementLoop S a k acc) []

/-! ## Input invariants -/

/-- The name of the mother of variant `(k, m)`, line 77. -/
def motherName (a : Args) (k m : Nat) : String :=
  a.parentName ++ a.placementIndexTags.getD m "" ++ a.tags.getD k ""

/-- The vertex list that the provider returns for variant `(k, m)`, lines 78-79. -/
def waferOf (S : Services) (a : Args) (k m : Nat) : List (ℚ × ℚ) :=
  S.waferXY (a.partialTypes.getD k 0) (a.placementIndex.getD m 0) (a.waferSize + a.waferSepar)
    0 0 0

/-- The layer catalogue and the stacking sequence are well-formed: the three
catalogue lists have one length, and every entry of `layerType` is a valid
index into the catalogue (and a value of the C++ type `int`). -/
structure LayersOK (a : Args) : Prop where
  names_len : a.layerNames.length = a.materials.length
  thick_len : a.layerThick.length = a.materials.length
  type_valid : ∀ t ∈ a.layerType, 0 ≤ t ∧ t < a.materials.length
  type_int : ∀ t ∈ a.layerType, t < 2 ^ 31

/-- The mother of variant `(k, m)` can be built: `k` and `m` are in range of the
four variant lists, and the provider returns a non-empty vertex list (of a
size that `size_t` holds). -/
structure MotherOK (S : Services) (a : Args) (k m : Nat) : Prop where
  k_tags : k < a.tags.length
  k_types : k < a.partialTypes.length
  m_index : m < a.placementIndex.length
  m_tags : m < a.placementIndexTags.length
  wxy_ne : waferOf S a k m ≠ []
  wxy_size : (waferOf S a k m).length < 2 ^ 64

/-- The assumed input invariants: the parallel lists have equal lengths, the
stacking sequence holds valid catalogue indices, and the provider returns a
non-empty vertex list for every variant. -/
structure WellFormed (S : Services) (a : Args) : Prop where
  tags_len : a.tags.length = a.partialTypes.length
  placement_len : a.placementIndex.length = a.placementIndexTags.length
  layers : LayersOK a
  wxy_ne : ∀ k m, k < a.tags.length → m < a.placementIndex.length → waferOf S a k m ≠ []
  wxy_size : ∀ k m, k < a.tags.length → m < a.placementIndex.length →
    (waferOf S a k m).length < 2 ^ 64

/-! ## Closed forms

What the loops produce on well-formed input, written without the loops.  The
lemmas below prove that the algorithm computes exactly these values. -/

/-- The thickness of catalogue entry `i`. -/
def thickOf (a : Args) (i : Nat) : ℚ := a.layerThick.getD i 0

/-- The mother solid of variant `(k, m)` as registered in line 88. -/
def motherSolid (S : Services) (a : Args) (k m : Nat) : Solid :=
  { name := S.prepend (motherName a k m),
    x := (waferOf S a k m).dropLast.map Prod.fst,
    y := (waferOf S a k m).dropLast.map Prod.snd,
    z := [-0.5 * a.thick, 0.5 * a.thick], zx := [0, 0], zy := [0, 0], zscale := [1, 1] }

/-- The mother volume of variant `(k, m)` as registered in line 91. -/
def motherVolume (S : Services) (a : Args) (k m : Nat) : Volume :=
  { name := S.prepend (motherName a k m), solid := motherSolid S a k m, material := a.material }

/-- The solid of layer type `i` as registered in line 113. -/
def layerSolid (S : Services) (a : Args) (mother : String) (xM yM zx zy scale : List ℚ)
    (i : Nat) : Solid :=
  { name := S.prepend (mother ++ a.layerNames.getD i ""), x := xM, y := yM,
    z := [-0.5 * thickOf a i, 0.5 * thickOf a i], zx := zx, zy := zy, zscale := scale }

/-- The volume of layer type `i` as registered in line 116. -/
def layerVolume (S : Services) (a : Args) (mother : String) (xM yM zx zy scale : List ℚ)
    (i : Nat) : Volume :=
  { name := S.prepend (mother ++ a.layerNames.getD i ""),
    solid := layerSolid S a mother xM yM zx zy scale i,
    material := a.materials.getD i "" }

/-- The record of the iteration that handles type `i` after the types `done`. -/
def layerRec (S : Services) (a : Args) (mother : String) (xM yM zx zy scale : List ℚ)
    (glogM : Volume) (done : List Nat) (i : Nat) : LayerRec :=
  { i := i,
    solid := if i ∈ done then none else some (layerSolid S a mother xM yM zx zy scale i),
    volume := if i ∈ done then none else some (layerVolume S a mother xM yM zx zy scale i),
    place :=
      { parent := glogM, child := some (layerVolume S a mother xM yM zx zy scale i),
        copyNo := 1 + (done.count i : Int),
        tran := (0, 0, -0.5 * a.thick + (done.map (thickOf a)).sum + 0.5 * thickOf a i) } }

/-- The records of the layer loop over the stacking sequence `types`. -/
def layerRecs (S : Services) (a : Args) (mother : String) (xM yM zx zy scale : List ℚ)
    (glogM : Volume) (types : List Nat) : List LayerRec :=
  (List.range types.length).map
    (fun l => layerRec S a mother xM yM zx zy scale glogM (types.take l) (types.getD l 0))

/-- The invariant of the layer loop: the state `st` after the types `done`. -/
structure LoopInv (S : Services) (a : Args) (mother : String) (xM yM zx zy scale : List ℚ)
    (glogM : Volume) (done : List Nat) (st : LoopState) : Prop where
  zw_len : st.zw.length = 2
  glogs_len : st.glogs.length = a.materials.length
  copy_len : st.copyNumber.length = a.materials.length
  copy_eq : ∀ i, i < a.materials.length → st.copyNumber[i]? = some (1 + (done.count i : Int))
  glogs_eq : ∀ i, i < a.materials.length → st.glogs[i]? =
    some (if i ∈ done then some (layerVolume S a mother xM yM zx zy scale i) else none)
  zi_eq : st.zi = -0.5 * a.thick + (done.map (thickOf a)).sum
  tot_eq : st.thickTot = (done.map (thickOf a)).sum
  layers_eq : st.layers = layerRecs S a mother xM yM zx zy scale glogM done

/-- The pairs `(k, m)` in the order of the two nested loops of lines 74-75. -/
def variantPairs (a : Args) : List (Nat × Nat) :=
  (List.range a.tags.length).flatMap
    (fun k => (List.range a.placementIndex.length).map (fun m => (k, m)))

/-- The names that variant `(k, m)` of a well-formed configuration registers:
the mother's, then those of the layer types in the order of their first
occurrence in the stacking sequence. -/
def variantNames (S : Services) (a : Args) (p : Nat × Nat) : List String :=
  S.prepend (motherName a p.1 p.2) ::
    (layerRecs S a (motherName a p.1 p.2) ((waferOf S a p.1 p.2).dropLast.map Prod.fst)
      ((waferOf S a p.1 p.2).dropLast.map Prod.snd) [0, 0] [0, 0] [1, 1]
      (motherVolume S a p.1 p.2) (a.layerType.map Int.toNat)).filterMap
      (fun r => r.solid.map (fun s => s.name))

/-! ## Observations on the result -/

/-- The names under which a variant registers solids (lines 88 and 113), in
the order of registration. -/
def Variant.solidNames (v : Variant) : List String :=
  v.glogM.solid.name :: v.final.layers.filterMap (fun r => r.solid.map (fun s => s.name))

/-- The names of the volumes that a variant registers (lines 91 and 116), in
the order of registration. -/
def Variant.volumeNames (v : Variant) : List String :=
  v.glogM.name :: v.final.layers.filterMap (fun r => r.volume.map (fun g => g.name))

/-! ## Sample inputs -/

/-- A closed outline, as the provider returns it: the last vertex repeats the first. -/
def squareXY : List (ℚ × ℚ) := [(1, 1), (-1, 1), (-1, -1), (1, -1), (1, 1)]

/-- Sample collaborators: a provider that returns `squareXY` for every request,
and names qualified with the namespace `hgcal:`. -/
def demoServices : Services :=
  { waferXY := fun _ _ _ _ _ _ => squareXY, prepend := fun n => "hgcal:" ++ n }

/-- Scenario A: a module of thickness 1.0 with the layers `[0, 1]` of thickness
0.4 and 0.6. -/
def scenarioA : Args :=
  { parentName := "HGCalEEAbsorber", material := "materials:Air", thick := 1.0,
    waferSize := 167, waferSepar := 1,
    tags := ["LD1"], partialTypes := [11], placementIndex := [0], placementIndexTags := ["06"],
    layerNames := ["Cu", "Pb"], materials := ["materials:Copper", "materials:Lead"],
    layerThick := [0.4, 0.6], layerType := [0, 1] }

/-- Scenario B: a module of thickness 1.0 with the layers `[0, 0]` of thickness 0.3. -/
def scenarioB : Args :=
  { scenarioA with
    layerNames := ["Cu"], materials := ["materials:Copper"], layerThick := [0.3],
    layerType := [0, 0] }

/-- Scenario D: two truncation types and one placement orientation. -/
def scenarioD : Args :=
  { scenarioA with
    parentName := "parent", tags := ["A", "B"], partialTypes := [1, 2], placementIndex := [0],
    placementIndexTags := ["p"] }

/-- Tags of different lengths: `"p" ++ "AB"` and `"pA" ++ "B"` are one string. -/
def scenarioE : Args :=
  { scenarioA with
    tags := ["AB", "B"], partialTypes := [1, 2], placementIndex := [0, 1],
    placementIndexTags := ["p", "pA"] }

/-! ## The run without diagnostics -/

/-- The body of the `(k, m)` loop with the thickness check of lines 137-145
left out: what the variant sends to the registry when the diagnostics are
discarded. -/
def variantQuiet (S : Services) (a : Args) (k m : Nat) : Except Err Variant := do
  let ptag ← idx a.placementIndexTags m
  let tag ← idx a.tags k
  let mother := a.parentName ++ ptag ++ tag
  let ptype ← idx a.partialTypes k
  let pidx ← idx a.placementIndex m
  let wxy := S.waferXY ptype pidx (a.waferSize + a.waferSepar) 0 0 0
  let xy ← fillXY wxy
  let zw : List ℚ := [-0.5 * a.thick, 0.5 * a.thick]
  let zx : List ℚ := List.replicate 2 0
  let zy : List ℚ := List.replicate 2 0
  let scale : List ℚ := List.replicate 2 1
  let solid := addSolidNS (S.prepend mother) (ExtrudedPolygon xy.1 xy.2 zw zx zy scale)
  let matter := a.material
  let glogM : Volume := { name := solid.name, solid := solid, material := matter }
  let glogs : List (Option Volume) := List.replicate a.materials.length none
  let copyNumber : List Int := List.replicate a.materials.length 1
  let st ← a.layerType.foldlM (layerStep S a mother xy.1 xy.2 zx zy scale glogM)
    { zw := zw, solid := solid, matter := matter, glogs := glogs, copyNumber := copyNumber,
      zi := -0.5 * a.thick, thickTot := 0, layers := [] }
  pure { mother := mother, xM := xy.1, yM := xy.2, glogM := glogM, final := st, diag := [] }

/-- The loop over `m` of the run without diagnostics. -/
def placementLoopQuiet (S : Services) (a : Args) (k : Nat) (acc : List Variant) :
    Except Err (List Variant) :=
  (List.range a.placementIndex.length).foldlM
    (fun acc m => do let v ← variantQuiet S a k m; pure (acc ++ [v])) acc

/-- The constructor of the run without diagnostics. -/
def constructQuiet (S : Services) (a : Args) : Except Err (List Variant) :=
  (List.range a.tags.length).foldlM (fun acc k => placementLoopQuiet S a k acc) []

/-- A variant with its diagnostics left out: the solids, volumes and placements
that it registers. -/
def Variant.registered (v : Variant) : Variant := { v with diag := [] }

/-- Scenario D with a module thickness of 2.0: the layers (0.4 + 0.6) underfill
both variants. -/
def scenarioF : Args := { scenarioD with thick := 2.0 }

/-- Scenario A with one truncation type and one placement tag too many:
`partialTypes` is longer than `tags`, `placementIndexTags` is longer than
`placementIndex`. -/
def scenarioG : Args :=
  { scenarioA with partialTypes := [11, 12], placementIndexTags := ["06", "07"] }

/-- Scenario D with the second truncation type missing: `partialTypes` is
shorter than `tags`. -/
def scenarioH : Args := { scenarioD with partialTypes := [1] }

/-! ## The states of the layer loop -/

/-- The state in which the layer loop of variant `(k, m)` starts (lines 102-105),
for a variant whose mother is built. -/
def loopStart (S : Services) (a : Args) (k m : Nat) : LoopState :=
  { zw := [-0.5 * a.thick, 0.5 * a.thick], solid := motherSolid S a k m,
    matter := a.material, glogs := List.replicate a.materials.length none,
    copyNumber := List.replicate a.materials.length 1,
    zi := -0.5 * a.thick, thickTot := 0, layers := [] }

/-- The state of the layer loop of variant `(k, m)` before the `l`-th entry of
`layerType` is processed, that is after the entries `0, ..., l - 1`. -/
def stateBefore (S : Services) (a : Args) (k m : Nat) (l : Nat) : Except Err LoopState :=
  (a.layerType.take l).foldlM
    (layerStep S a (motherName a k m) ((waferOf S a k m).dropLast.map Prod.fst)
      ((waferOf S a k m).dropLast.map Prod.snd) [0, 0] [0, 0] [1, 1] (motherVolume S a k m))
    (loopStart S a k m)

/-! ## The slabs of the stack -/

/-- The thickness `layerThickness[layerType[l]]` of the `l`-th layer of the stack. -/
def Args.thickAt (a : Args) (l : Nat) : ℚ := a.layerThick.getD (a.layerType.getD l 0).toNat 0

/-- The z-coordinate of the `l`-th placement of a variant. -/
def Variant.zAt (v : Variant) (l : Nat) : ℚ :=
  ((v.final.layers[l]?).map (fun r => r.place.tran.2.2)).getD 0

/-- The lower face `z_l - t_l / 2` of the `l`-th slab. -/
def slabLo (a : Args) (v : Variant) (l : Nat) : ℚ := v.zAt l - a.thickAt l / 2

/-- The upper face `z_l + t_l / 2` of the `l`-th slab. -/
def slabHi (a : Args) (v : Variant) (l : Nat) : ℚ := v.zAt l + a.thickAt l / 2

/-! ## Double precision

The model above adds and compares in exact arithmetic.  The two places where
the values of the C++ `double`s decide what the code reports, the thickness
accumulator (lines 105, 135) and the thickness check (lines 71, 137-145), are
given here a second time with IEEE 754 binary64 rounding: a finite `double` is
the rational number it denotes, and every operation returns the nearest
`double` of its exact result, ties to even.  Infinities and NaN are not
represented: inputs and results are taken to be finite. -/

/-- The number of binary digits of `n`, with `fuel` digits at most. -/
def bitLengthAux : Nat → Nat → Nat
  | 0, _ => 0
  | fuel + 1, n => if n = 0 then 0 else 1 + bitLengthAux fuel (n / 2)

/-- The number of binary digits of `n`: the least `b` with `n < 2 ^ b`. -/
def bitLength (n : Nat) : Nat := bitLengthAux n n

/-- The binary exponent of `q ≠ 0`: the `e` with `2 ^ e ≤ |q| < 2 ^ (e + 1)`. -/
def binade (q : ℚ) : Int :=
  let e0 : Int := (bitLength q.num.natAbs : Int) - (bitLength q.den : Int)
  if (2 : ℚ) ^ e0 ≤ |q| then e0 else e0 - 1

/-- The integer nearest to `q`, the even one of the two when `q` is half-way. -/
def roundHalfEven (q : ℚ) : Int :=
  if q - ⌊q⌋ < 1 / 2 then ⌊q⌋
  else if 1 / 2 < q - ⌊q⌋ then ⌊q⌋ + 1
  else if ⌊q⌋ % 2 = 0 then ⌊q⌋ else ⌊q⌋ + 1

/-- The binary64 number nearest to `q` (round to nearest, ties to even): a
multiple of `2 ^ u` with `u = max (binade q - 52) (-1074)`, that is 53
significant bits and the subnormal spacing `2 ^ (-1074)` at the bottom. -/
def round64 (q : ℚ) : ℚ :=
  if q = 0 then 0
  else (roundHalfEven (q / 2 ^ max (binade q - 52) (-1074)) : ℚ) * 2 ^ max (binade q - 52) (-1074)

/-- Line 71 as a `double`: the literal `0.00001` is the nearest binary64 number. -/
def tolDouble : ℚ := round64 0.00001

/-- The accumulator `thickTot` of the layer loop in double precision: lines 105
(`thickTot(0.0)`), 107 (`i = layerType[l]`) and 135 (`thickTot +=
layerThick[i]`); no other statement of the loop writes `thickTot`. -/
def thickTotDouble (layerThick : List ℚ) (layerType : List Int) : Except Err ℚ :=
  layerType.foldlM
    (fun thickTot t => do
      let th ← idx layerThick (toIndex t)
      pure (round64 (thickTot + th)))
    0

/-- Lines 137-145 in double precision: the difference is rounded before it is
compared with the `double` tolerance. -/
def validateDouble (thick thickTot : ℚ) (layerType : List Int) : List Diag :=
  if |round64 (thickTot - thick)| ≥ tolDouble ∧ ¬ layerType.isEmpty then
    if thickTot > thick then [Diag.error thick thickTot] else [Diag.warning thick thickTot]
  else []

/-! ## Lemmas -/

theorem idx_of_getElem? {α : Type} {xs : List α} {i : Nat} {x : α} (h : xs[i]? = some x) :
    idx xs i = .ok x := by
  simp [idx, h]

theorem setAt_of_lt {α : Type} {xs : List α} {i : Nat} (v : α) (h : i < xs.length) :
    setAt xs i v = .ok (xs.set i v) := by
  simp [setAt, h]

theorem toIndex_of_valid {t : Int} (h0 : 0 ≤ t) (h1 : t < 2 ^ 31) : toIndex t = t.toNat := by
  unfold toIndex
  rw [Int.emod_eq_of_lt h0 (by omega)]

theorem fillXYLoop_spec (bound : Nat) (rest : List (ℚ × ℚ)) (i : Nat) (xM yM : List ℚ)
    (h : bound < i + rest.length) :
    fillXYLoop bound rest i xM yM =
      .ok (xM ++ (rest.take (bound - i)).map Prod.fst, yM ++ (rest.take (bound - i)).map Prod.snd) := by
  induction rest generalizing i xM yM with
  | nil =>
    simp at h
    simp [fillXYLoop]; omega
  | cons p rest ih =>
    by_cases hi : i < bound
    · have h2 : bound < (i + 1) + rest.length := by simp at h; omega
      have h3 : bound - i = (bound - (i + 1)) + 1 := by omega
      simp [fillXYLoop, hi, ih (i + 1) _ _ h2, h3]
    · have h3 : bound - i = 0 := by omega
      simp [fillXYLoop, hi, h3]

theorem fillXY_spec (wxy : List (ℚ × ℚ)) (hne : wxy ≠ []) (hsz : wxy.length < 2 ^ 64) :
    fillXY wxy = .ok (wxy.dropLast.map Prod.fst, wxy.dropLast.map Prod.snd) := by
  have hpos : 0 < wxy.length := List.length_pos.mpr hne
  have hb : (wxy.length + 2 ^ 64 - 1) % 2 ^ 64 = wxy.length - 1 := by
    have : wxy.length + 2 ^ 64 - 1 = (wxy.length - 1) + 2 ^ 64 := by omega
    rw [this, Nat.add_mod_right, Nat.mod_eq_of_lt (by omega)]
  unfold fillXY
  rw [hb, fillXYLoop_spec _ _ _ _ _ (by omega)]
  simp [List.dropLast_eq_take]

theorem fillXY_nil : fillXY [] = .error .outOfRange := by
  simp [fillXY, fillXYLoop]

theorem layerRecs_snoc (S : Services) (a : Args) (mother : String) (xM yM zx zy scale : List ℚ)
    (glogM : Volume) (done : List Nat) (i : Nat) :
    layerRecs S a mother xM yM zx zy scale glogM (done ++ [i]) =
      layerRecs S a mother xM yM zx zy scale glogM done ++
        [layerRec S a mother xM yM zx zy scale glogM done i] := by
  unfold layerRecs
  rw [List.length_append, List.length_singleton, List.range_succ, List.map_append]
  congr 1
  · apply List.map_congr_left
    intro l hl
    have hl' : l < done.length := List.mem_range.mp hl
    rw [List.take_append_of_le_length (Nat.le_of_lt hl')]
    simp [List.getD_eq_getElem?_getD, List.getElem?_append_left hl']
  · simp [List.getD_eq_getElem?_getD]

theorem lt_length_of_getElem? {α : Type} {xs : List α} {i : Nat} {x : α} (h : xs[i]? = some x) :
    i < xs.length := by
  rcases Nat.lt_or_ge i xs.length with h1 | h1
  · exact h1
  · rw [List.getElem?_eq_none h1] at h; cases h

theorem layerStep_build (S : Services) (a : Args) (mother : String) (xM yM zx zy scale : List ℚ)
    (glogM : Volume) (st : LoopState) (t : Int) (i : Nat) (th : ℚ) (nm mat : String)
    (hi : toIndex t = i)
    (hc : st.copyNumber[i]? = some 1) (hth : a.layerThick[i]? = some th)
    (hnm : a.layerNames[i]? = some nm) (hmat : a.materials[i]? = some mat)
    (hg : i < st.glogs.length) :
    layerStep S a mother xM yM zx zy scale glogM st t = .ok
      { zw := (st.zw.set 0 (-0.5 * th)).set 1 (0.5 * th),
        solid := addSolidNS (S.prepend (mother ++ nm))
          (ExtrudedPolygon xM yM ((st.zw.set 0 (-0.5 * th)).set 1 (0.5 * th)) zx zy scale),
        matter := mat,
        glogs := st.glogs.set i (some
          { name := S.prepend (mother ++ nm),
            solid := addSolidNS (S.prepend (mother ++ nm))
              (ExtrudedPolygon xM yM ((st.zw.set 0 (-0.5 * th)).set 1 (0.5 * th)) zx zy scale),
            material := mat }),
        copyNumber := st.copyNumber.set i (1 + 1),
        zi := st.zi + th,
        thickTot := st.thickTot + th,
        layers := st.layers ++
          [{ i := i,
             solid := some (addSolidNS (S.prepend (mother ++ nm))
               (ExtrudedPolygon xM yM ((st.zw.set 0 (-0.5 * th)).set 1 (0.5 * th)) zx zy scale)),
             volume := some
               { name := S.prepend (mother ++ nm),
                 solid := addSolidNS (S.prepend (mother ++ nm))
                   (ExtrudedPolygon xM yM ((st.zw.set 0 (-0.5 * th)).set 1 (0.5 * th)) zx zy scale),
                 material := mat },
             place :=
               { parent := glogM,
                 child := some
                   { name := S.prepend (mother ++ nm),
                     solid := addSolidNS (S.prepend (mother ++ nm))
                       (ExtrudedPolygon xM yM ((st.zw.set 0 (-0.5 * th)).set 1 (0.5 * th)) zx zy scale),
                     material := mat },
                 copyNo := 1,
                 tran := (0, 0, st.zi + 0.5 * th) } }] } := by
  have hcl : i < st.copyNumber.length := lt_length_of_getElem? hc
  have hg2 : (st.glogs.set i (some
          { name := S.prepend (mother ++ nm),
            solid := addSolidNS (S.prepend (mother ++ nm))
              (ExtrudedPolygon xM yM ((st.zw.set 0 (-0.5 * th)).set 1 (0.5 * th)) zx zy scale),
            material := mat }))[i]? = some (some
          { name := S.prepend (mother ++ nm),
            solid := addSolidNS (S.prepend (mother ++ nm))
              (ExtrudedPolygon xM yM ((st.zw.set 0 (-0.5 * th)).set 1 (0.5 * th)) zx zy scale),
            material := mat }) := by
    simp [List.getElem?_set, hg]
  simp only [layerStep, hi, idx_of_getElem? hc, idx_of_getElem? hth, idx_of_getElem? hnm,
    idx_of_getElem? hmat, setAt_of_lt _ hg, setAt_of_lt _ hcl, bind, Except.bind, pure,
    Except.pure, if_true, addSolidNS, ExtrudedPolygon] at hg2 ⊢
  simp only [idx_of_getElem? hg2, idx_of_getElem? hc, setAt_of_lt _ hcl]

theorem layerStep_reuse (S : Services) (a : Args) (mother : String) (xM yM zx zy scale : List ℚ)
    (glogM : Volume) (st : LoopState) (t : Int) (i : Nat) (c : Int) (th : ℚ) (g : Option Volume)
    (hi : toIndex t = i)
    (hc : st.copyNumber[i]? = some c) (hc1 : c ≠ 1) (hth : a.layerThick[i]? = some th)
    (hg : st.glogs[i]? = some g) :
    layerStep S a mother xM yM zx zy scale glogM st t = .ok
      { st with
        copyNumber := st.copyNumber.set i (c + 1),
        zi := st.zi + th,
        thickTot := st.thickTot + th,
        layers := st.layers ++
          [{ i := i, solid := none, volume := none,
             place := { parent := glogM, child := g, copyNo := c,
                        tran := (0, 0, st.zi + 0.5 * th) } }] } := by
  have hcl : i < st.copyNumber.length := lt_length_of_getElem? hc
  simp only [layerStep, hi, idx_of_getElem? hc, idx_of_getElem? hth, idx_of_getElem? hg,
    setAt_of_lt _ hcl, bind, Except.bind, pure, Except.pure, if_neg hc1]

theorem getElem?_getD_of_lt {α : Type} (xs : List α) (i : Nat) (d : α) (h : i < xs.length) :
    xs[i]? = some (xs.getD i d) := by
  simp [List.getD_eq_getElem?_getD, List.getElem?_eq_getElem h]

theorem set_set_pair (zw : List ℚ) (h : zw.length = 2) (p q : ℚ) :
    (zw.set 0 p).set 1 q = [p, q] := by
  match zw, h with
  | [_, _], _ => rfl

theorem layerStep_inv (S : Services) (a : Args) (mother : String) (xM yM zx zy scale : List ℚ)
    (glogM : Volume) (done : List Nat) (st : LoopState) (t : Int)
    (hn : a.layerNames.length = a.materials.length)
    (ht : a.layerThick.length = a.materials.length)
    (hinv : LoopInv S a mother xM yM zx zy scale glogM done st)
    (h0 : 0 ≤ t) (h1 : t < a.materials.length) (h2 : t < 2 ^ 31) :
    ∃ st', layerStep S a mother xM yM zx zy scale glogM st t = .ok st' ∧
      LoopInv S a mother xM yM zx zy scale glogM (done ++ [t.toNat]) st' := by
  have hi : toIndex t = t.toNat := toIndex_of_valid h0 h2
  have hil : t.toNat < a.materials.length := by omega
  generalize t.toNat = i at hi hil
  have hth : a.layerThick[i]? = some (thickOf a i) :=
    getElem?_getD_of_lt _ _ _ (by omega)
  have hnm : a.layerNames[i]? = some (a.layerNames.getD i "") :=
    getElem?_getD_of_lt _ _ _ (by omega)
  have hmat : a.materials[i]? = some (a.materials.getD i "") :=
    getElem?_getD_of_lt _ _ _ hil
  have hc := hinv.copy_eq i hil
  have hg := hinv.glogs_eq i hil
  by_cases hmem : i ∈ done
  · have hcnt : 0 < done.count i := List.count_pos_iff.mpr hmem
    rw [if_pos hmem] at hg
    refine ⟨_, layerStep_reuse S a mother xM yM zx zy scale glogM st t i _ _ _ hi hc
      (by omega) hth hg, ?_⟩
    constructor
    · exact hinv.zw_len
    · exact hinv.glogs_len
    · simp [hinv.copy_len]
    · intro j hj
      by_cases hij : i = j
      · subst hij
        simp [List.getElem?_set, hinv.copy_len, hil]
        ring
      · have hji : j ≠ i := fun h => hij h.symm
        simp [List.getElem?_set, hij, hinv.copy_eq j hj, List.count_append, hji]
    · intro j hj
      by_cases hij : i = j
      · subst hij
        simp [hg, hmem]
      · have hji : j ≠ i := fun h => hij h.symm
        simp [hinv.glogs_eq j hj, hji]
    · simp [hinv.zi_eq]; ring
    · simp [hinv.tot_eq]
    · simp [layerRecs_snoc, hinv.layers_eq, layerRec, hmem, hinv.zi_eq]
  · have hcnt : done.count i = 0 := List.count_eq_zero.mpr hmem
    rw [hcnt] at hc
    have hgl : i < st.glogs.length := by rw [hinv.glogs_len]; exact hil
    refine ⟨_, layerStep_build S a mother xM yM zx zy scale glogM st t i _ _ _ hi
      (by simpa using hc) hth hnm hmat hgl, ?_⟩
    rw [set_set_pair _ hinv.zw_len]
    constructor
    · rfl
    · simp [hinv.glogs_len]
    · simp [hinv.copy_len]
    · intro j hj
      by_cases hij : i = j
      · subst hij
        simp [List.getElem?_set, hinv.copy_len, hil, hcnt]
      · have hji : j ≠ i := fun h => hij h.symm
        simp [List.getElem?_set, hij, hinv.copy_eq j hj, List.count_append, hji]
    · intro j hj
      by_cases hij : i = j
      · subst hij
        simp [List.getElem?_set, hgl, layerVolume, layerSolid, addSolidNS, ExtrudedPolygon]
      · have hji : j ≠ i := fun h => hij h.symm
        simp [List.getElem?_set, hij, hinv.glogs_eq j hj, hji]
    · simp [hinv.zi_eq]; ring
    · simp [hinv.tot_eq]
    · simp [layerRecs_snoc, hinv.layers_eq, layerRec, hmem, hinv.zi_eq, hcnt, layerVolume,
        layerSolid, addSolidNS, ExtrudedPolygon]

theorem layerLoop_inv (S : Services) (a : Args) (mother : String) (xM yM zx zy scale : List ℚ)
    (glogM : Volume)
    (hn : a.layerNames.length = a.materials.length)
    (ht : a.layerThick.length = a.materials.length)
    (types : List Int) (done : List Nat) (st : LoopState)
    (hinv : LoopInv S a mother xM yM zx zy scale glogM done st)
    (hv : ∀ t ∈ types, (0 ≤ t ∧ t < a.materials.length) ∧ t < 2 ^ 31) :
    ∃ st', types.foldlM (layerStep S a mother xM yM zx zy scale glogM) st = .ok st' ∧
      LoopInv S a mother xM yM zx zy scale glogM (done ++ types.map Int.toNat) st' := by
  induction types generalizing done st with
  | nil => exact ⟨st, rfl, by simpa using hinv⟩
  | cons t rest ih =>
    have htv := hv t (List.mem_cons_self _ _)
    obtain ⟨st1, hst1, hinv1⟩ := layerStep_inv S a mother xM yM zx zy scale glogM done st t
      hn ht hinv htv.1.1 htv.1.2 htv.2
    obtain ⟨st2, hst2, hinv2⟩ := ih (done ++ [t.toNat]) st1 hinv1
      (fun u hu => hv u (List.mem_cons_of_mem _ hu))
    refine ⟨st2, ?_, by simpa using hinv2⟩
    rw [List.foldlM_cons, hst1]
    exact hst2

theorem loopInv_init (S : Services) (a : Args) (mother : String) (xM yM zx zy scale : List ℚ)
    (glogM : Volume) (solid : Solid) (matter : String) :
    LoopInv S a mother xM yM zx zy scale glogM []
      { zw := [-0.5 * a.thick, 0.5 * a.thick], solid := solid, matter := matter,
        glogs := List.replicate a.materials.length none,
        copyNumber := List.replicate a.materials.length 1,
        zi := -0.5 * a.thick, thickTot := 0, layers := [] } := by
  constructor
  · rfl
  · simp
  · simp
  · intro i hi; simp [List.getElem?_replicate, hi]
  · intro i hi; simp [List.getElem?_replicate, hi]
  · simp
  · simp
  · simp [layerRecs]

/-- A variant whose mother can be built returns what its layer loop returns. -/
theorem variant_of_loop (S : Services) (a : Args) (k m : Nat) (hm : MotherOK S a k m)
    (st : LoopState)
    (hst : a.layerType.foldlM
        (layerStep S a (motherName a k m) ((waferOf S a k m).dropLast.map Prod.fst)
          ((waferOf S a k m).dropLast.map Prod.snd) [0, 0] [0, 0] [1, 1] (motherVolume S a k m))
        { zw := [-0.5 * a.thick, 0.5 * a.thick], solid := motherSolid S a k m,
          matter := a.material, glogs := List.replicate a.materials.length none,
          copyNumber := List.replicate a.materials.length 1,
          zi := -0.5 * a.thick, thickTot := 0, layers := [] } = .ok st) :
    variant S a k m = .ok
        { mother := motherName a k m,
          xM := (waferOf S a k m).dropLast.map Prod.fst,
          yM := (waferOf S a k m).dropLast.map Prod.snd,
          glogM := motherVolume S a k m,
          final := st,
          diag := validate a.thick st.thickTot a.layerType } := by
  have h1 : a.placementIndexTags[m]? = some (a.placementIndexTags.getD m "") :=
    getElem?_getD_of_lt _ _ _ hm.m_tags
  have h2 : a.tags[k]? = some (a.tags.getD k "") := getElem?_getD_of_lt _ _ _ hm.k_tags
  have h3 : a.partialTypes[k]? = some (a.partialTypes.getD k 0) :=
    getElem?_getD_of_lt _ _ _ hm.k_types
  have h4 : a.placementIndex[m]? = some (a.placementIndex.getD m 0) :=
    getElem?_getD_of_lt _ _ _ hm.m_index
  have h5 := fillXY_spec (waferOf S a k m) hm.wxy_ne hm.wxy_size
  unfold waferOf at h5
  simp only [variant, idx_of_getElem? h1, idx_of_getElem? h2, idx_of_getElem? h3,
    idx_of_getElem? h4, h5, bind, Except.bind, pure, Except.pure]
  simp only [motherName, waferOf, motherVolume, motherSolid, addSolidNS, ExtrudedPolygon,
    List.replicate] at hst ⊢
  rw [hst]

theorem variant_spec (S : Services) (a : Args) (k m : Nat)
    (hm : MotherOK S a k m) (hl : LayersOK a) :
    ∃ st, variant S a k m = .ok
        { mother := motherName a k m,
          xM := (waferOf S a k m).dropLast.map Prod.fst,
          yM := (waferOf S a k m).dropLast.map Prod.snd,
          glogM := motherVolume S a k m,
          final := st,
          diag := validate a.thick st.thickTot a.layerType } ∧
      LoopInv S a (motherName a k m) ((waferOf S a k m).dropLast.map Prod.fst)
        ((waferOf S a k m).dropLast.map Prod.snd) [0, 0] [0, 0] [1, 1] (motherVolume S a k m)
        (a.layerType.map Int.toNat) st := by
  obtain ⟨st, hst, hinv⟩ := layerLoop_inv S a (motherName a k m)
    ((waferOf S a k m).dropLast.map Prod.fst) ((waferOf S a k m).dropLast.map Prod.snd)
    [0, 0] [0, 0] [1, 1] (motherVolume S a k m) hl.names_len hl.thick_len a.layerType []
    _ (loopInv_init S a _ _ _ _ _ _ _ (motherSolid S a k m) a.material)
    (fun t htm => ⟨hl.type_valid t htm, hl.type_int t htm⟩)
  exact ⟨st, variant_of_loop S a k m hm st hst, by simpa using hinv⟩

/-- The fields of the result of a variant of a well-formed configuration. -/
theorem variant_fields (S : Services) (a : Args) (k m : Nat)
    (hm : MotherOK S a k m) (hl : LayersOK a) (v : Variant) (h : variant S a k m = .ok v) :
    v.mother = motherName a k m ∧
    v.xM = (waferOf S a k m).dropLast.map Prod.fst ∧
    v.yM = (waferOf S a k m).dropLast.map Prod.snd ∧
    v.glogM = motherVolume S a k m ∧
    LoopInv S a (motherName a k m) ((waferOf S a k m).dropLast.map Prod.fst)
      ((waferOf S a k m).dropLast.map Prod.snd) [0, 0] [0, 0] [1, 1] (motherVolume S a k m)
      (a.layerType.map Int.toNat) v.final := by
  obtain ⟨st, hv, hinv⟩ := variant_spec S a k m hm hl
  rw [hv] at h
  injection h with h
  subst h
  exact ⟨rfl, rfl, rfl, rfl, hinv⟩

section
variable (S : Services) (a : Args) (mother : String) (xM yM zx zy scale : List ℚ) (glogM : Volume)

theorem layerRecs_nil : layerRecs S a mother xM yM zx zy scale glogM [] = [] := by
  simp [layerRecs]

theorem layerRecs_types (types : List Nat) :
    (layerRecs S a mother xM yM zx zy scale glogM types).map (fun r => r.i) = types := by
  induction types using List.reverseRecOn with
  | nil => simp [layerRecs_nil]
  | append_singleton done i ih => simp [layerRecs_snoc, ih, layerRec]

theorem layerRecs_solids (types : List Nat) (i : Nat) :
    ((layerRecs S a mother xM yM zx zy scale glogM types).filter (fun r => r.i = i)).filterMap
        (fun r => r.solid) =
      if i ∈ types then [layerSolid S a mother xM yM zx zy scale i] else [] := by
  induction types using List.reverseRecOn with
  | nil => simp [layerRecs_nil]
  | append_singleton done j ih =>
    rw [layerRecs_snoc, List.filter_append, List.filterMap_append, ih]
    by_cases hji : j = i
    · subst hji
      by_cases hmem : j ∈ done <;> simp [layerRec, hmem]
    · have hij : i ≠ j := fun h => hji h.symm
      by_cases hmem : i ∈ done <;> simp [layerRec, hmem, hji, hij]

theorem layerRecs_volumes (types : List Nat) (i : Nat) :
    ((layerRecs S a mother xM yM zx zy scale glogM types).filter (fun r => r.i = i)).filterMap
        (fun r => r.volume) =
      if i ∈ types then [layerVolume S a mother xM yM zx zy scale i] else [] := by
  induction types using List.reverseRecOn with
  | nil => simp [layerRecs_nil]
  | append_singleton done j ih =>
    rw [layerRecs_snoc, List.filter_append, List.filterMap_append, ih]
    by_cases hji : j = i
    · subst hji
      by_cases hmem : j ∈ done <;> simp [layerRec, hmem]
    · have hij : i ≠ j := fun h => hji h.symm
      by_cases hmem : i ∈ done <;> simp [layerRec, hmem, hji, hij]

theorem layerRecs_children (types : List Nat) (i : Nat) :
    ((layerRecs S a mother xM yM zx zy scale glogM types).filter (fun r => r.i = i)).map
        (fun r => (r.place.parent, r.place.child)) =
      List.replicate (types.count i)
        (glogM, some (layerVolume S a mother xM yM zx zy scale i)) := by
  induction types using List.reverseRecOn with
  | nil => simp [layerRecs_nil]
  | append_singleton done j ih =>
    rw [layerRecs_snoc, List.filter_append, List.map_append, ih, List.count_append]
    by_cases hji : j = i
    · subst hji
      simp [layerRec, List.replicate_succ']
    · have hij : ¬ i = j := fun h => hji h.symm
      simp [layerRec, hji, List.count_cons, hij]

theorem layerRecs_copyNo (types : List Nat) (i : Nat) :
    ((layerRecs S a mother xM yM zx zy scale glogM types).filter (fun r => r.i = i)).map
        (fun r => r.place.copyNo) =
      (List.range (types.count i)).map (fun (c : Nat) => (c : Int) + 1) := by
  induction types using List.reverseRecOn with
  | nil => simp [layerRecs_nil]
  | append_singleton done j ih =>
    rw [layerRecs_snoc, List.filter_append, List.map_append, ih, List.count_append]
    by_cases hji : j = i
    · subst hji
      simp [layerRec, List.range_succ, add_comm]
    · have hij : ¬ i = j := fun h => hji h.symm
      simp [layerRec, hji, List.count_cons, hij]

end

theorem map_toNat_count (types : List Int) (h : ∀ t ∈ types, 0 ≤ t) (i : Nat) :
    (types.map Int.toNat).count i = types.count (i : Int) := by
  induction types with
  | nil => rfl
  | cons t rest ih =>
    have h0 : 0 ≤ t := h t (List.mem_cons_self _ _)
    have ih' := ih (fun u hu => h u (List.mem_cons_of_mem _ hu))
    have hiff : (t.toNat = i) ↔ (t = (i : Int)) := by omega
    by_cases hti : t = (i : Int)
    · have : t.toNat = i := hiff.mpr hti
      simp [List.count_cons, ih', hti]
    · have : ¬ t.toNat = i := fun h => hti (hiff.mp h)
      simp [List.count_cons, ih', hti, this]
theorem layerRecs_length (S : Services) (a : Args) (mother : String)
    (xM yM zx zy scale : List ℚ) (glogM : Volume) (types : List Nat) :
    (layerRecs S a mother xM yM zx zy scale glogM types).length = types.length := by
  simp [layerRecs]

theorem layerRecs_getElem? (S : Services) (a : Args) (mother : String)
    (xM yM zx zy scale : List ℚ) (glogM : Volume) (types : List Nat) (l : Nat)
    (h : l < types.length) :
    (layerRecs S a mother xM yM zx zy scale glogM types)[l]? =
      some (layerRec S a mother xM yM zx zy scale glogM (types.take l) (types.getD l 0)) := by
  simp [layerRecs, List.getElem?_map, List.getElem?_range h]

theorem variant_diag (S : Services) (a : Args) (k m : Nat) (v : Variant)
    (h : variant S a k m = .ok v) :
    v.diag = validate a.thick v.final.thickTot a.layerType := by
  simp only [variant, bind, Except.bind, pure, Except.pure] at h
  repeat' split at h
  all_goals cases h
  rfl

theorem validate_cases (x y : ℚ) (lt : List Int) (hne : lt ≠ []) :
    (validate y x lt = [] ↔ |x - y| < 0.00001) ∧
    (validate y x lt = [Diag.error y x] ↔ |x - y| ≥ 0.00001 ∧ x > y) ∧
    (validate y x lt = [Diag.error y x] ↔ x ≥ y + 0.00001) ∧
    (validate y x lt = [Diag.warning y x] ↔ |x - y| ≥ 0.00001 ∧ x < y) ∧
    (validate y x lt = [Diag.warning y x] ↔ x ≤ y - 0.00001) ∧
    (validate y x lt = [] ∨ validate y x lt = [Diag.error y x] ∨
      validate y x lt = [Diag.warning y x]) := by
  have hemp : lt.isEmpty = false := by
    cases lt with
    | nil => exact absurd rfl hne
    | cons _ _ => rfl
  have ht : tol = 0.00001 := rfl
  have hpos : (0 : ℚ) < 0.00001 := by norm_num
  generalize (0.00001 : ℚ) = e at ht hpos ⊢
  by_cases h1 : |x - y| < e
  · have hv : validate y x lt = [] := by
      simp only [validate, ht, hemp, ge_iff_le, not_le.mpr h1, false_and, if_false]
    rw [hv]
    have h2 := abs_lt.mp h1
    refine ⟨by simp [h1], ?_, ?_, ?_, ?_, Or.inl rfl⟩
    · simp; intro h; exact absurd h1 (not_lt.mpr h)
    · simp; linarith [h2.2]
    · simp; intro h; exact absurd h1 (not_lt.mpr h)
    · simp; linarith [h2.1]
  · have h1' : |x - y| ≥ e := not_lt.mp h1
    by_cases h2 : x > y
    · have hv : validate y x lt = [Diag.error y x] := by
        simp [validate, ht, hemp, h2, h1']
      rw [hv]
      have h3 : |x - y| = x - y := abs_of_pos (by linarith)
      refine ⟨by simp [h1], by simp [h1', h2], ?_, ?_, ?_, Or.inr (Or.inl rfl)⟩
      · simp; rw [h3] at h1'; linarith
      · simp; intro _; linarith
      · simp; linarith
    · have hv : validate y x lt = [Diag.warning y x] := by
        simp [validate, ht, hemp, h2, h1']
      rw [hv]
      have h4 : x ≤ y := not_lt.mp h2
      have h3 : |x - y| = y - x := by rw [abs_of_nonpos (by linarith)]; ring
      have h5 : x < y := by
        rcases lt_or_eq_of_le h4 with h | h
        · exact h
        · rw [h3, h] at h1'; simp at h1'; linarith
      refine ⟨by simp [h1], ?_, ?_, by simp [h1', h5], ?_, Or.inr (Or.inr rfl)⟩
      · simp; intro _; exact h4
      · simp; linarith
      · simp; rw [h3] at h1'; linarith

theorem WellFormed.motherOK {S : Services} {a : Args} (h : WellFormed S a) {k m : Nat}
    (hk : k < a.tags.length) (hm : m < a.placementIndex.length) : MotherOK S a k m :=
  ⟨hk, h.tags_len ▸ hk, hm, h.placement_len ▸ hm, h.wxy_ne k m hk hm, h.wxy_size k m hk hm⟩

theorem placementLoop_eq (S : Services) (a : Args) (k : Nat) (vf : Nat → Variant)
    (ms : List Nat) (h : ∀ m ∈ ms, variant S a k m = .ok (vf m)) (acc : List Variant) :
    ms.foldlM (fun acc m => do let v ← variant S a k m; pure (acc ++ [v])) acc =
      .ok (acc ++ ms.map vf) := by
  induction ms generalizing acc with
  | nil => simp [pure, Except.pure]
  | cons m rest ih =>
    rw [List.foldlM_cons, h m (List.mem_cons_self _ _)]
    simp only [bind, Except.bind, pure, Except.pure]
    have := ih (fun u hu => h u (List.mem_cons_of_mem _ hu)) (acc ++ [vf m])
    simp only [bind, Except.bind, pure, Except.pure] at this
    rw [this]
    simp

theorem constructLoop_eq (S : Services) (a : Args) (vf : Nat → Nat → Variant)
    (ks : List Nat)
    (h : ∀ k ∈ ks, ∀ m, m < a.placementIndex.length → variant S a k m = .ok (vf k m))
    (acc : List Variant) :
    ks.foldlM (fun acc k => placementLoop S a k acc) acc =
      .ok (acc ++ ks.flatMap (fun k => (List.range a.placementIndex.length).map (vf k))) := by
  induction ks generalizing acc with
  | nil => simp [pure, Except.pure]
  | cons k rest ih =>
    have hk : placementLoop S a k acc =
        .ok (acc ++ (List.range a.placementIndex.length).map (vf k)) :=
      placementLoop_eq S a k (vf k) _
        (fun m hm => h k (List.mem_cons_self _ _) m (List.mem_range.mp hm)) acc
    rw [List.foldlM_cons, hk]
    simp only [bind, Except.bind]
    rw [ih (fun u hu => h u (List.mem_cons_of_mem _ hu))]
    simp

theorem construct_eq (S : Services) (a : Args) (vf : Nat → Nat → Variant)
    (h : ∀ k, k < a.tags.length → ∀ m, m < a.placementIndex.length →
      variant S a k m = .ok (vf k m)) :
    construct S a = .ok ((variantPairs a).map (fun p => vf p.1 p.2)) := by
  unfold construct
  rw [constructLoop_eq S a vf _ (fun k hk => h k (List.mem_range.mp hk))]
  simp only [variantPairs, List.map_flatMap, List.map_map, List.nil_append]
  rfl

theorem mem_variantPairs (a : Args) (p : Nat × Nat) :
    p ∈ variantPairs a ↔ p.1 < a.tags.length ∧ p.2 < a.placementIndex.length := by
  obtain ⟨k, m⟩ := p
  simp only [variantPairs, List.mem_flatMap, List.mem_range, List.mem_map, Prod.mk.injEq]
  constructor
  · rintro ⟨k', hk', m', hm', rfl, rfl⟩
    exact ⟨hk', hm'⟩
  · rintro ⟨hk, hm⟩
    exact ⟨k, hk, m, hm, rfl, rfl⟩

theorem length_variantPairs (a : Args) :
    (variantPairs a).length = a.tags.length * a.placementIndex.length := by
  have h : ∀ (n c : Nat) (f : Nat → Nat), (∀ k, f k = c) →
      ((List.range n).map f).sum = n * c := by
    intro n c f hf
    induction n with
    | zero => simp
    | succ n ih => rw [List.range_succ, List.map_append, List.sum_append, ih]; simp [hf]; ring
  rw [variantPairs, List.length_flatMap]
  exact h _ _ _ (fun k => by simp)

/-- A well-formed configuration is constructed in full: the result lists, in
the order of the loops, the result of every variant. -/
theorem construct_spec (S : Services) (a : Args) (hwf : WellFormed S a) :
    ∃ out, construct S a = .ok out ∧
      List.Forall₂ (fun p v => variant S a p.1 p.2 = .ok v) (variantPairs a) out := by
  have hex : ∀ k m, ∃ v, k < a.tags.length → m < a.placementIndex.length →
      variant S a k m = .ok v := by
    intro k m
    by_cases hk : k < a.tags.length
    · by_cases hm : m < a.placementIndex.length
      · obtain ⟨st, hv, _⟩ := variant_spec S a k m (hwf.motherOK hk hm) hwf.layers
        exact ⟨_, fun _ _ => hv⟩
      · exact ⟨⟨"", [], [], ⟨"", ExtrudedPolygon [] [] [] [] [] [], ""⟩,
          ⟨[], ExtrudedPolygon [] [] [] [] [] [], "", [], [], 0, 0, []⟩, []⟩,
          fun _ h => absurd h hm⟩
    · exact ⟨⟨"", [], [], ⟨"", ExtrudedPolygon [] [] [] [] [] [], ""⟩,
        ⟨[], ExtrudedPolygon [] [] [] [] [] [], "", [], [], 0, 0, []⟩, []⟩,
        fun h _ => absurd h hk⟩
  choose vf hvf using hex
  refine ⟨_, construct_eq S a vf (fun k hk m hm => hvf k m hk hm), ?_⟩
  rw [List.forall₂_map_right_iff, List.forall₂_same]
  intro p hp
  rw [mem_variantPairs] at hp
  exact hvf p.1 p.2 hp.1 hp.2

theorem forall₂_map_eq {α β γ : Type} {R : α → β → Prop} {l1 : List α} {l2 : List β}
    (f : β → γ) (g : α → γ) (h : List.Forall₂ R l1 l2)
    (hfg : ∀ x y, x ∈ l1 → R x y → f y = g x) : l2.map f = l1.map g := by
  induction h with
  | nil => rfl
  | cons hxy _ ih =>
    rw [List.map_cons, List.map_cons, hfg _ _ (List.mem_cons_self _ _) hxy,
      ih (fun x y hx hr => hfg x y (List.mem_cons_of_mem _ hx) hr)]

theorem forall₂_mem_right {α β : Type} {R : α → β → Prop} {l1 : List α} {l2 : List β}
    (h : List.Forall₂ R l1 l2) (y : β) (hy : y ∈ l2) : ∃ x ∈ l1, R x y := by
  induction h with
  | nil => cases hy
  | cons hxy _ ih =>
    rcases List.mem_cons.mp hy with rfl | hy'
    · exact ⟨_, List.mem_cons_self _ _, hxy⟩
    · obtain ⟨x, hx, hr⟩ := ih hy'
      exact ⟨x, List.mem_cons_of_mem _ hx, hr⟩

theorem half_pair (t : ℚ) : [-0.5 * t, 0.5 * t] = [-t / 2, t / 2] := by
  have h1 : -0.5 * t = -t / 2 := by ring
  have h2 : 0.5 * t = t / 2 := by ring
  rw [h1, h2]

theorem wellFormed_demo_scenarioD : WellFormed demoServices scenarioD :=
  ⟨by decide, by decide, ⟨by decide, by decide, by decide, by decide⟩,
    fun _ _ _ _ => by simp [waferOf, demoServices, squareXY],
    fun _ _ _ _ => by simp [waferOf, demoServices, squareXY]⟩

/-- A variant of a well-formed configuration is built, and its thickness
accumulator ends as the sum of the thicknesses of the stacking sequence. -/
theorem variant_thickTot (S : Services) (a : Args) (k m : Nat)
    (hm : MotherOK S a k m) (hl : LayersOK a) :
    ∃ v, variant S a k m = .ok v ∧
      v.final.thickTot = (a.layerType.map (fun t => a.layerThick.getD t.toNat 0)).sum := by
  obtain ⟨st, hv, hinv⟩ := variant_spec S a k m hm hl
  refine ⟨_, hv, ?_⟩
  show st.thickTot = _
  rw [hinv.tot_eq, List.map_map]; rfl

theorem str_append_inj {s1 s2 t1 t2 : String} (h : s1 ++ t1 = s2 ++ t2)
    (hlen : s1.length = s2.length) : s1 = s2 ∧ t1 = t2 := by
  have hd := congrArg String.data h
  rw [String.data_append, String.data_append] at hd
  obtain ⟨h1, h2⟩ := List.append_inj hd hlen
  exact ⟨String.ext h1, String.ext h2⟩

theorem getD_inj_of_nodup {α : Type} {xs : List α} (hnd : xs.Nodup) (d : α) {i j : Nat}
    (hi : i < xs.length) (hj : j < xs.length) (h : xs.getD i d = xs.getD j d) : i = j := by
  rw [List.getD_eq_getElem _ _ hi, List.getD_eq_getElem _ _ hj] at h
  exact (hnd.getElem_inj_iff).mp h

theorem getD_mem {α : Type} (xs : List α) (d : α) {i : Nat} (hi : i < xs.length) :
    xs.getD i d ∈ xs := by
  rw [List.getD_eq_getElem _ _ hi]
  exact List.getElem_mem hi

theorem nodup_variantPairs (a : Args) : (variantPairs a).Nodup := by
  have h : variantPairs a = List.product (List.range a.tags.length)
      (List.range a.placementIndex.length) := rfl
  rw [h]
  exact List.Nodup.product (List.nodup_range _) (List.nodup_range _)

theorem forall₂_flatMap_eq {α β γ : Type} {R : α → β → Prop} {l1 : List α} {l2 : List β}
    (f : β → List γ) (g : α → List γ) (h : List.Forall₂ R l1 l2)
    (hfg : ∀ x y, x ∈ l1 → R x y → f y = g x) : l2.flatMap f = l1.flatMap g := by
  induction h with
  | nil => rfl
  | cons hxy _ ih =>
    rw [List.flatMap_cons, List.flatMap_cons, hfg _ _ (List.mem_cons_self _ _) hxy,
      ih (fun x y hx hr => hfg x y (List.mem_cons_of_mem _ hx) hr)]

section
variable (S : Services) (a : Args) (mother : String) (xM yM zx zy scale : List ℚ) (glogM : Volume)

theorem layerRecs_solidNames_snoc (done : List Nat) (i : Nat) :
    (layerRecs S a mother xM yM zx zy scale glogM (done ++ [i])).filterMap
        (fun r => r.solid.map (fun s => s.name)) =
      (layerRecs S a mother xM yM zx zy scale glogM done).filterMap
        (fun r => r.solid.map (fun s => s.name)) ++
      (if i ∈ done then [] else [S.prepend (mother ++ a.layerNames.getD i "")]) := by
  rw [layerRecs_snoc, List.filterMap_append]
  by_cases h : i ∈ done <;> simp [layerRec, h, layerSolid]

theorem mem_layerRecs_solidNames (types : List Nat) (x : String)
    (hx : x ∈ (layerRecs S a mother xM yM zx zy scale glogM types).filterMap
      (fun r => r.solid.map (fun s => s.name))) :
    ∃ i ∈ types, x = S.prepend (mother ++ a.layerNames.getD i "") := by
  induction types using List.reverseRecOn with
  | nil => simp [layerRecs_nil] at hx
  | append_singleton done i ih =>
    rw [layerRecs_solidNames_snoc, List.mem_append] at hx
    rcases hx with hx | hx
    · obtain ⟨j, hj, hxj⟩ := ih hx
      exact ⟨j, List.mem_append_left _ hj, hxj⟩
    · by_cases h : i ∈ done
      · simp [h] at hx
      · rw [if_neg h, List.mem_singleton] at hx
        exact ⟨i, by simp, hx⟩

theorem nodup_layerRecs_solidNames (types : List Nat)
    (hinj : ∀ i ∈ types, ∀ j ∈ types,
      S.prepend (mother ++ a.layerNames.getD i "") = S.prepend (mother ++ a.layerNames.getD j "") →
      i = j) :
    ((layerRecs S a mother xM yM zx zy scale glogM types).filterMap
      (fun r => r.solid.map (fun s => s.name))).Nodup := by
  induction types using List.reverseRecOn with
  | nil => simp [layerRecs_nil]
  | append_singleton done i ih =>
    rw [layerRecs_solidNames_snoc]
    have ih' := ih (fun i hi j hj h =>
      hinj i (List.mem_append_left _ hi) j (List.mem_append_left _ hj) h)
    by_cases h : i ∈ done
    · simpa [h] using ih'
    · rw [if_neg h, List.nodup_append]
      refine ⟨ih', List.nodup_singleton _, ?_⟩
      intro x hx1 hx2
      rw [List.mem_singleton] at hx2
      obtain ⟨j, hj, hxj⟩ := mem_layerRecs_solidNames S a mother xM yM zx zy scale glogM done x hx1
      have : i = j := hinj i (by simp) j (List.mem_append_left _ hj) (by rw [← hx2, hxj])
      exact h (this ▸ hj)

theorem layerRecs_volumeNames (types : List Nat) :
    (layerRecs S a mother xM yM zx zy scale glogM types).filterMap
        (fun r => r.volume.map (fun g => g.name)) =
      (layerRecs S a mother xM yM zx zy scale glogM types).filterMap
        (fun r => r.solid.map (fun s => s.name)) := by
  apply List.filterMap_congr
  intro r hr
  simp only [layerRecs, List.mem_map] at hr
  obtain ⟨l, _, rfl⟩ := hr
  simp only [layerRec]
  split_ifs <;> rfl

end

theorem variant_names (S : Services) (a : Args) (k m : Nat)
    (hm : MotherOK S a k m) (hl : LayersOK a) (v : Variant) (h : variant S a k m = .ok v) :
    v.solidNames = variantNames S a (k, m) ∧ v.volumeNames = variantNames S a (k, m) := by
  obtain ⟨_, _, _, hg, hinv⟩ := variant_fields S a k m hm hl v h
  constructor
  · simp only [Variant.solidNames, variantNames, hg, hinv.layers_eq]
    rfl
  · simp only [Variant.volumeNames, variantNames, hg, hinv.layers_eq, layerRecs_volumeNames]
    rfl

theorem mem_variantNames (S : Services) (a : Args) (hl : LayersOK a) (p : Nat × Nat) (x : String)
    (hx : x ∈ variantNames S a p) :
    ∃ s, (s = "" ∨ s ∈ a.layerNames) ∧ x = S.prepend (motherName a p.1 p.2 ++ s) := by
  rw [variantNames, List.mem_cons] at hx
  rcases hx with hx | hx
  · exact ⟨"", Or.inl rfl, by rw [hx, String.append_empty]⟩
  · obtain ⟨i, hi, hxi⟩ := mem_layerRecs_solidNames S a _ _ _ _ _ _ _ _ x hx
    refine ⟨a.layerNames.getD i "", Or.inr (getD_mem _ _ ?_), hxi⟩
    obtain ⟨t, ht, rfl⟩ := List.mem_map.mp hi
    have := hl.type_valid t ht
    rw [hl.names_len]
    omega

theorem motherName_length (a : Args) (k m k' m' : Nat)
    (hk : k < a.tags.length) (hm : m < a.placementIndexTags.length)
    (hk' : k' < a.tags.length) (hm' : m' < a.placementIndexTags.length)
    (htl : ∀ s ∈ a.tags, ∀ t ∈ a.tags, s.length = t.length)
    (hpl : ∀ s ∈ a.placementIndexTags, ∀ t ∈ a.placementIndexTags, s.length = t.length) :
    (motherName a k m).length = (motherName a k' m').length := by
  simp only [motherName, String.length_append]
  rw [htl _ (getD_mem a.tags "" hk) _ (getD_mem a.tags "" hk'),
    hpl _ (getD_mem a.placementIndexTags "" hm) _ (getD_mem a.placementIndexTags "" hm')]

theorem motherName_inj (a : Args) (k m k' m' : Nat)
    (hk : k < a.tags.length) (hm : m < a.placementIndexTags.length)
    (hk' : k' < a.tags.length) (hm' : m' < a.placementIndexTags.length)
    (htags : a.tags.Nodup) (hptags : a.placementIndexTags.Nodup)
    (hpl : ∀ s ∈ a.placementIndexTags, ∀ t ∈ a.placementIndexTags, s.length = t.length)
    (h : motherName a k m = motherName a k' m') : k = k' ∧ m = m' := by
  simp only [motherName] at h
  have hlen : (a.parentName ++ a.placementIndexTags.getD m "").length =
      (a.parentName ++ a.placementIndexTags.getD m' "").length := by
    simp only [String.length_append]
    rw [hpl _ (getD_mem a.placementIndexTags "" hm) _ (getD_mem a.placementIndexTags "" hm')]
  obtain ⟨h1, h2⟩ := str_append_inj h hlen
  obtain ⟨_, h3⟩ := str_append_inj h1 rfl
  exact ⟨getD_inj_of_nodup htags "" hk hk' h2, getD_inj_of_nodup hptags "" hm hm' h3⟩

/-- The names registered by a well-formed configuration with injective name
qualification, distinct layer names none of which is empty, and distinct tags
of one length each, are pairwise distinct. -/
theorem nodup_flatMap_variantNames (S : Services) (a : Args) (hwf : WellFormed S a)
    (hinj : Function.Injective S.prepend)
    (htags : a.tags.Nodup) (hptags : a.placementIndexTags.Nodup) (hnames : a.layerNames.Nodup)
    (htl : ∀ s ∈ a.tags, ∀ t ∈ a.tags, s.length = t.length)
    (hpl : ∀ s ∈ a.placementIndexTags, ∀ t ∈ a.placementIndexTags, s.length = t.length)
    (hne : "" ∉ a.layerNames) :
    ((variantPairs a).flatMap (variantNames S a)).Nodup := by
  rw [List.nodup_flatMap]
  constructor
  · intro p _
    rw [variantNames, List.nodup_cons]
    constructor
    · intro hx
      obtain ⟨i, hi, hxi⟩ := mem_layerRecs_solidNames S a _ _ _ _ _ _ _ _ _ hx
      have h1 := hinj hxi
      have h2 : motherName a p.1 p.2 ++ "" = motherName a p.1 p.2 ++ a.layerNames.getD i "" := by
        rw [String.append_empty]; exact h1
      obtain ⟨_, h3⟩ := str_append_inj h2 rfl
      apply hne
      rw [h3]
      apply getD_mem
      obtain ⟨t, ht, rfl⟩ := List.mem_map.mp hi
      have := hwf.layers.type_valid t ht
      rw [hwf.layers.names_len]
      omega
    · apply nodup_layerRecs_solidNames
      intro i hi j hj hij
      obtain ⟨_, h3⟩ := str_append_inj (hinj hij) rfl
      obtain ⟨t, ht, rfl⟩ := List.mem_map.mp hi
      obtain ⟨u, hu, rfl⟩ := List.mem_map.mp hj
      have h4 := hwf.layers.type_valid t ht
      have h5 := hwf.layers.type_valid u hu
      exact getD_inj_of_nodup hnames "" (by rw [hwf.layers.names_len]; omega)
        (by rw [hwf.layers.names_len]; omega) h3
  · apply (nodup_variantPairs a).pairwise_of_forall_ne
    intro p hp q hq hpq x hxp hxq
    rw [mem_variantPairs] at hp hq
    obtain ⟨s, _, hs⟩ := mem_variantNames S a hwf.layers p x hxp
    obtain ⟨t, _, ht⟩ := mem_variantNames S a hwf.layers q x hxq
    have h1 : motherName a p.1 p.2 ++ s = motherName a q.1 q.2 ++ t := hinj (by rw [← hs, ← ht])
    have hp2 : p.2 < a.placementIndexTags.length := hwf.placement_len ▸ hp.2
    have hq2 : q.2 < a.placementIndexTags.length := hwf.placement_len ▸ hq.2
    obtain ⟨h2, _⟩ := str_append_inj h1
      (motherName_length a p.1 p.2 q.1 q.2 hp.1 hp2 hq.1 hq2 htl hpl)
    obtain ⟨h3, h4⟩ := motherName_inj a p.1 p.2 q.1 q.2 hp.1 hp2 hq.1 hq2 htags hptags hpl h2
    exact hpq (Prod.ext h3 h4)

/-- The names that the construction of a well-formed configuration registers. -/
theorem construct_names (S : Services) (a : Args) (hwf : WellFormed S a) :
    ∃ out, construct S a = .ok out ∧
      out.flatMap Variant.solidNames = (variantPairs a).flatMap (variantNames S a) ∧
      out.flatMap Variant.volumeNames = (variantPairs a).flatMap (variantNames S a) ∧
      out.map (fun v => v.glogM.solid.name) =
        (variantPairs a).map (fun p => S.prepend (motherName a p.1 p.2)) := by
  obtain ⟨out, hout, hall⟩ := construct_spec S a hwf
  refine ⟨out, hout, ?_, ?_, ?_⟩
  · apply forall₂_flatMap_eq _ _ hall
    intro p v hp hv
    rw [mem_variantPairs] at hp
    exact (variant_names S a p.1 p.2 (hwf.motherOK hp.1 hp.2) hwf.layers v hv).1
  · apply forall₂_flatMap_eq _ _ hall
    intro p v hp hv
    rw [mem_variantPairs] at hp
    exact (variant_names S a p.1 p.2 (hwf.motherOK hp.1 hp.2) hwf.layers v hv).2
  · apply forall₂_map_eq _ _ hall
    intro p v hp hv
    rw [mem_variantPairs] at hp
    obtain ⟨_, _, _, hg, _⟩ := variant_fields S a p.1 p.2 (hwf.motherOK hp.1 hp.2)
      hwf.layers v hv
    show v.glogM.solid.name = _
    rw [hg]
    rfl

theorem map_sublist_flatMap_cons {α β : Type} (f : α → β) (g : α → List β) (l : List α) :
    List.Sublist (l.map f) (l.flatMap (fun x => f x :: g x)) := by
  induction l with
  | nil => simp
  | cons x rest ih =>
    rw [List.map_cons, List.flatMap_cons, List.cons_append]
    exact List.Sublist.cons₂ _ (List.Sublist.trans ih (List.sublist_append_right _ _))

theorem wellFormed_demo_scenarioE : WellFormed demoServices scenarioE :=
  ⟨by decide, by decide, ⟨by decide, by decide, by decide, by decide⟩,
    fun _ _ _ _ => by simp [waferOf, demoServices, squareXY],
    fun _ _ _ _ => by simp [waferOf, demoServices, squareXY]⟩

theorem demo_prepend_injective : Function.Injective demoServices.prepend := by
  intro s t h
  exact (str_append_inj (h : "hgcal:" ++ s = "hgcal:" ++ t) rfl).2

theorem variantQuiet_of_variant (S : Services) (a : Args) (k m : Nat) (v : Variant)
    (h : variant S a k m = .ok v) : variantQuiet S a k m = .ok v.registered := by
  simp only [variant, bind, Except.bind, pure, Except.pure] at h
  repeat' split at h
  all_goals cases h
  simp only [variantQuiet, bind, Except.bind, pure, Except.pure, *]
  rfl

theorem collectLoop_eq (f : Nat → Except Err Variant) (vf : Nat → Variant)
    (ms : List Nat) (h : ∀ m ∈ ms, f m = .ok (vf m)) (acc : List Variant) :
    ms.foldlM (fun acc m => do let v ← f m; pure (acc ++ [v])) acc =
      .ok (acc ++ ms.map vf) := by
  induction ms generalizing acc with
  | nil => simp [pure, Except.pure]
  | cons m rest ih =>
    rw [List.foldlM_cons, h m (List.mem_cons_self _ _)]
    simp only [bind, Except.bind, pure, Except.pure]
    have := ih (fun u hu => h u (List.mem_cons_of_mem _ hu)) (acc ++ [vf m])
    simp only [bind, Except.bind, pure, Except.pure] at this
    rw [this]
    simp

theorem constructQuiet_eq (S : Services) (a : Args) (vf : Nat → Nat → Variant)
    (h : ∀ k, k < a.tags.length → ∀ m, m < a.placementIndex.length →
      variantQuiet S a k m = .ok (vf k m)) :
    constructQuiet S a = .ok ((variantPairs a).map (fun p => vf p.1 p.2)) := by
  have hloop : ∀ (ks : List Nat), (∀ k ∈ ks, k < a.tags.length) → ∀ acc : List Variant,
      ks.foldlM (fun acc k => placementLoopQuiet S a k acc) acc =
        .ok (acc ++ ks.flatMap (fun k => (List.range a.placementIndex.length).map (vf k))) := by
    intro ks
    induction ks with
    | nil => intro _ acc; simp [pure, Except.pure]
    | cons k rest ih =>
      intro hks acc
      have hk : placementLoopQuiet S a k acc =
          .ok (acc ++ (List.range a.placementIndex.length).map (vf k)) :=
        collectLoop_eq (variantQuiet S a k) (vf k) _
          (fun m hm => h k (hks k (List.mem_cons_self _ _)) m (List.mem_range.mp hm)) acc
      rw [List.foldlM_cons, hk]
      simp only [bind, Except.bind]
      rw [ih (fun u hu => hks u (List.mem_cons_of_mem _ hu))]
      simp
  unfold constructQuiet
  rw [hloop _ (fun k hk => List.mem_range.mp hk)]
  simp only [variantPairs, List.map_flatMap, List.map_map, List.nil_append]
  rfl

/-- The variants of a configuration, given that each of them is built. -/
theorem construct_of_variants (S : Services) (a : Args)
    (h : ∀ k, k < a.tags.length → ∀ m, m < a.placementIndex.length →
      ∃ v, variant S a k m = .ok v) :
    ∃ vf : Nat → Nat → Variant,
      (∀ k, k < a.tags.length → ∀ m, m < a.placementIndex.length →
        variant S a k m = .ok (vf k m)) ∧
      construct S a = .ok ((variantPairs a).map (fun p => vf p.1 p.2)) := by
  have hex : ∀ k m, ∃ v, k < a.tags.length → m < a.placementIndex.length →
      variant S a k m = .ok v := by
    intro k m
    by_cases hk : k < a.tags.length
    · by_cases hm : m < a.placementIndex.length
      · obtain ⟨v, hv⟩ := h k hk m hm
        exact ⟨v, fun _ _ => hv⟩
      · exact ⟨⟨"", [], [], ⟨"", ExtrudedPolygon [] [] [] [] [] [], ""⟩,
          ⟨[], ExtrudedPolygon [] [] [] [] [] [], "", [], [], 0, 0, []⟩, []⟩,
          fun _ h => absurd h hm⟩
    · exact ⟨⟨"", [], [], ⟨"", ExtrudedPolygon [] [] [] [] [] [], ""⟩,
        ⟨[], ExtrudedPolygon [] [] [] [] [] [], "", [], [], 0, 0, []⟩, []⟩,
        fun h _ => absurd h hk⟩
  choose vf hvf using hex
  exact ⟨vf, fun k hk m hm => hvf k m hk hm, construct_eq S a vf (fun k hk m hm => hvf k m hk hm)⟩

theorem wellFormed_demo_scenarioF : WellFormed demoServices scenarioF :=
  ⟨by decide, by decide, ⟨by decide, by decide, by decide, by decide⟩,
    fun _ _ _ _ => by simp [waferOf, demoServices, squareXY],
    fun _ _ _ _ => by simp [waferOf, demoServices, squareXY]⟩

theorem scenarioF_warning (k m : Nat) (v : Variant) (hm : MotherOK demoServices scenarioF k m)
    (h : variant demoServices scenarioF k m = .ok v) : v.diag = [Diag.warning 2.0 1.0] := by
  obtain ⟨_, _, _, _, hinv⟩ := variant_fields demoServices scenarioF k m hm
    wellFormed_demo_scenarioF.layers v h
  have htot : v.final.thickTot = 1.0 := by
    rw [hinv.tot_eq]
    norm_num [scenarioF, scenarioD, scenarioA, thickOf]
  have hthick : scenarioF.thick = 2.0 := rfl
  rw [variant_diag _ _ _ _ v h, htot, hthick]
  rw [(validate_cases 1.0 2.0 scenarioF.layerType (by decide)).2.2.2.2.1]
  norm_num

theorem idx_of_ge {α : Type} {xs : List α} {i : Nat} (h : xs.length ≤ i) :
    idx xs i = .error .outOfRange := by
  simp [idx, List.getElem?_eq_none h]

theorem error_eq_outOfRange {α : Type} {x : Except Err α} {e : Err} (h : x = .error e) :
    x = .error .outOfRange := by
  cases e
  exact h

theorem variant_error_of_placementTag (S : Services) (a : Args) (k m : Nat)
    (h : a.placementIndexTags.length ≤ m) : variant S a k m = .error .outOfRange := by
  simp only [variant, idx_of_ge h, bind, Except.bind]

theorem variant_error_of_partialType (S : Services) (a : Args) (k m : Nat)
    (h : a.partialTypes.length ≤ k) : variant S a k m = .error .outOfRange := by
  simp only [variant, idx_of_ge h, bind, Except.bind]
  split
  · exact error_eq_outOfRange rfl
  · split
    · exact error_eq_outOfRange rfl
    · rfl

theorem foldlM_error_of_mem {α β : Type} (f : β → α → Except Err β) (l : List α) (x : α)
    (hx : x ∈ l) (hf : ∀ acc, f acc x = .error .outOfRange) (acc : β) :
    l.foldlM f acc = .error .outOfRange := by
  induction l generalizing acc with
  | nil => cases hx
  | cons y rest ih =>
    rw [List.foldlM_cons]
    cases hy : f acc y with
    | error e => exact error_eq_outOfRange rfl
    | ok acc' =>
      rcases List.mem_cons.mp hx with rfl | hx'
      · rw [hf acc] at hy; cases hy
      · exact ih hx' acc'

theorem construct_error_of_variant (S : Services) (a : Args) (k m : Nat)
    (hk : k < a.tags.length) (hm : m < a.placementIndex.length)
    (h : variant S a k m = .error .outOfRange) : construct S a = .error .outOfRange := by
  apply foldlM_error_of_mem _ _ k (List.mem_range.mpr hk)
  intro acc
  apply foldlM_error_of_mem _ _ m (List.mem_range.mpr hm)
  intro acc'
  rw [h]
  rfl

theorem first_occurrence (xs : List Nat) (l : Nat) (h : l < xs.length) :
    ∃ l', l' ≤ l ∧ xs.getD l' 0 = xs.getD l 0 ∧ xs.getD l 0 ∉ xs.take l' := by
  induction xs generalizing l with
  | nil => simp at h
  | cons x rest ih =>
    cases l with
    | zero => exact ⟨0, Nat.le_refl _, rfl, by simp⟩
    | succ l0 =>
      by_cases hx : x = rest.getD l0 0
      · exact ⟨0, Nat.zero_le _, by simpa using hx, by simp⟩
      · have h0 : l0 < rest.length := by simpa using h
        obtain ⟨l', hle, heq, hnot⟩ := ih l0 h0
        refine ⟨l' + 1, Nat.succ_le_succ hle, by simpa using heq, ?_⟩
        simp only [List.getD_cons_succ, List.take_succ_cons, List.mem_cons, not_or]
        exact ⟨fun h => hx h.symm, hnot⟩

/-- The layer loop of a well-formed configuration runs through every prefix
of the stacking sequence, and the invariant holds after it. -/
theorem stateBefore_inv (S : Services) (a : Args) (k m : Nat) (hl : LayersOK a) (l : Nat) :
    ∃ st, stateBefore S a k m l = .ok st ∧
      LoopInv S a (motherName a k m) ((waferOf S a k m).dropLast.map Prod.fst)
        ((waferOf S a k m).dropLast.map Prod.snd) [0, 0] [0, 0] [1, 1] (motherVolume S a k m)
        ((a.layerType.take l).map Int.toNat) st := by
  obtain ⟨st, hst, hinv⟩ := layerLoop_inv S a (motherName a k m)
    ((waferOf S a k m).dropLast.map Prod.fst) ((waferOf S a k m).dropLast.map Prod.snd)
    [0, 0] [0, 0] [1, 1] (motherVolume S a k m) hl.names_len hl.thick_len (a.layerType.take l) []
    _ (loopInv_init S a _ _ _ _ _ _ _ (motherSolid S a k m) a.material)
    (fun t htm => ⟨hl.type_valid t (List.mem_of_mem_take htm),
      hl.type_int t (List.mem_of_mem_take htm)⟩)
  exact ⟨st, hst, by simpa using hinv⟩

theorem fillXY_ok_of_ne (wxy : List (ℚ × ℚ)) (hne : wxy ≠ []) : ∃ xy, fillXY wxy = .ok xy := by
  have hpos : 0 < wxy.length := List.length_pos.mpr hne
  have hb : (wxy.length + 2 ^ 64 - 1) % 2 ^ 64 < 0 + wxy.length := by
    norm_num
    omega
  exact ⟨_, fillXYLoop_spec _ _ _ _ _ hb⟩

theorem toIndex_lt_of_valid {t : Int} {n : Nat} (h0 : 0 ≤ t) (h1 : t < n) : toIndex t < n := by
  unfold toIndex
  omega

/-- One iteration of the layer loop makes no out-of-range access when the
converted entry is an index into the catalogue and the two tables have the
size of the catalogue; the tables keep their size. -/
theorem layerStep_ok (S : Services) (a : Args) (mother : String) (xM yM zx zy scale : List ℚ)
    (glogM : Volume) (st : LoopState) (t : Int)
    (hn : a.layerNames.length = a.materials.length)
    (ht : a.layerThick.length = a.materials.length)
    (hg : st.glogs.length = a.materials.length)
    (hc : st.copyNumber.length = a.materials.length)
    (hi : toIndex t < a.materials.length) :
    ∃ st', layerStep S a mother xM yM zx zy scale glogM st t = .ok st' ∧
      st'.glogs.length = a.materials.length ∧ st'.copyNumber.length = a.materials.length := by
  have hth : a.layerThick[toIndex t]? = some (a.layerThick.getD (toIndex t) 0) :=
    getElem?_getD_of_lt _ _ _ (by omega)
  have hnm : a.layerNames[toIndex t]? = some (a.layerNames.getD (toIndex t) "") :=
    getElem?_getD_of_lt _ _ _ (by omega)
  have hmat : a.materials[toIndex t]? = some (a.materials.getD (toIndex t) "") :=
    getElem?_getD_of_lt _ _ _ hi
  have hcn : st.copyNumber[toIndex t]? = some (st.copyNumber.getD (toIndex t) 0) :=
    getElem?_getD_of_lt _ _ _ (by omega)
  have hgl : st.glogs[toIndex t]? = some (st.glogs.getD (toIndex t) none) :=
    getElem?_getD_of_lt _ _ _ (by omega)
  by_cases h1 : st.copyNumber.getD (toIndex t) 0 = 1
  · rw [h1] at hcn
    refine ⟨_, layerStep_build S a mother xM yM zx zy scale glogM st t _ _ _ _ rfl hcn hth hnm
      hmat (by omega), ?_, ?_⟩
    · simp [hg]
    · simp [hc]
  · refine ⟨_, layerStep_reuse S a mother xM yM zx zy scale glogM st t _ _ _ _ rfl hcn h1 hth
      hgl, ?_, ?_⟩
    · exact hg
    · simp [hc]

theorem layerLoop_ok (S : Services) (a : Args) (mother : String) (xM yM zx zy scale : List ℚ)
    (glogM : Volume)
    (hn : a.layerNames.length = a.materials.length)
    (ht : a.layerThick.length = a.materials.length)
    (types : List Int) (st : LoopState)
    (hg : st.glogs.length = a.materials.length)
    (hc : st.copyNumber.length = a.materials.length)
    (hv : ∀ t ∈ types, toIndex t < a.materials.length) :
    ∃ st', types.foldlM (layerStep S a mother xM yM zx zy scale glogM) st = .ok st' := by
  induction types generalizing st with
  | nil => exact ⟨st, rfl⟩
  | cons t rest ih =>
    obtain ⟨st1, hst1, hg1, hc1⟩ := layerStep_ok S a mother xM yM zx zy scale glogM st t hn ht
      hg hc (hv t (List.mem_cons_self _ _))
    obtain ⟨st2, hst2⟩ := ih st1 hg1 hc1 (fun u hu => hv u (List.mem_cons_of_mem _ hu))
    refine ⟨st2, ?_⟩
    rw [List.foldlM_cons, hst1]
    exact hst2

/-- A variant makes no out-of-range access when its indices are in range, the
provider's output is not empty, the catalogue lists have one length and the
stacking sequence holds indices into the catalogue. -/
theorem variant_ok (S : Services) (a : Args) (k m : Nat)
    (hk1 : k < a.tags.length) (hk2 : k < a.partialTypes.length)
    (hm1 : m < a.placementIndex.length) (hm2 : m < a.placementIndexTags.length)
    (hwxy : waferOf S a k m ≠ [])
    (hn : a.layerNames.length = a.materials.length)
    (ht : a.layerThick.length = a.materials.length)
    (hv : ∀ t ∈ a.layerType, 0 ≤ t ∧ t < a.materials.length) :
    ∃ v, variant S a k m = .ok v := by
  have h1 : a.placementIndexTags[m]? = some (a.placementIndexTags.getD m "") :=
    getElem?_getD_of_lt _ _ _ hm2
  have h2 : a.tags[k]? = some (a.tags.getD k "") := getElem?_getD_of_lt _ _ _ hk1
  have h3 : a.partialTypes[k]? = some (a.partialTypes.getD k 0) :=
    getElem?_getD_of_lt _ _ _ hk2
  have h4 : a.placementIndex[m]? = some (a.placementIndex.getD m 0) :=
    getElem?_getD_of_lt _ _ _ hm1
  obtain ⟨xy, hxy⟩ := fillXY_ok_of_ne (waferOf S a k m) hwxy
  unfold waferOf at hxy
  simp only [variant, idx_of_getElem? h1, idx_of_getElem? h2, idx_of_getElem? h3,
    idx_of_getElem? h4, hxy, bind, Except.bind, pure, Except.pure]
  obtain ⟨st, hst⟩ := layerLoop_ok S a
    (a.parentName ++ a.placementIndexTags.getD m "" ++ a.tags.getD k "") xy.1 xy.2
    (List.replicate 2 0) (List.replicate 2 0) (List.replicate 2 1)
    { name := (addSolidNS
          (S.prepend (a.parentName ++ a.placementIndexTags.getD m "" ++ a.tags.getD k ""))
          (ExtrudedPolygon xy.1 xy.2 [-0.5 * a.thick, 0.5 * a.thick] (List.replicate 2 0)
            (List.replicate 2 0) (List.replicate 2 1))).name,
      solid := addSolidNS
          (S.prepend (a.parentName ++ a.placementIndexTags.getD m "" ++ a.tags.getD k ""))
          (ExtrudedPolygon xy.1 xy.2 [-0.5 * a.thick, 0.5 * a.thick] (List.replicate 2 0)
            (List.replicate 2 0) (List.replicate 2 1)),
      material := a.material }
    hn ht a.layerType
    { zw := [-0.5 * a.thick, 0.5 * a.thick],
      solid := addSolidNS
          (S.prepend (a.parentName ++ a.placementIndexTags.getD m "" ++ a.tags.getD k ""))
          (ExtrudedPolygon xy.1 xy.2 [-0.5 * a.thick, 0.5 * a.thick] (List.replicate 2 0)
            (List.replicate 2 0) (List.replicate 2 1)),
      matter := a.material, glogs := List.replicate a.materials.length none,
      copyNumber := List.replicate a.materials.length 1,
      zi := -0.5 * a.thick, thickTot := 0, layers := [] }
    (by simp) (by simp) (fun t htm => toIndex_lt_of_valid (hv t htm).1 (hv t htm).2)
  rw [hst]
  exact ⟨_, rfl⟩

theorem thickOf_nonneg (a : Args) (h : ∀ t ∈ a.layerThick, 0 ≤ t) (i : Nat) :
    0 ≤ thickOf a i := by
  unfold thickOf
  rcases Nat.lt_or_ge i a.layerThick.length with hi | hi
  · exact h _ (getD_mem _ _ hi)
  · rw [List.getD_eq_default _ _ hi]

theorem prefix_sum_succ (f : Nat → ℚ) (types : List Nat) (l : Nat) (h : l < types.length) :
    ((types.take (l + 1)).map f).sum = ((types.take l).map f).sum + f (types.getD l 0) := by
  rw [List.take_succ, List.getElem?_eq_getElem h, List.getD_eq_getElem _ _ h, List.map_append,
    List.sum_append]
  simp

theorem prefix_sum_nonneg (f : Nat → ℚ) (hf : ∀ i, 0 ≤ f i) (types : List Nat) (l : Nat) :
    0 ≤ ((types.take l).map f).sum := by
  apply List.sum_nonneg
  intro x hx
  obtain ⟨i, _, rfl⟩ := List.mem_map.mp hx
  exact hf i

theorem prefix_sum_le_total (f : Nat → ℚ) (hf : ∀ i, 0 ≤ f i) (types : List Nat) (l : Nat) :
    ((types.take l).map f).sum ≤ (types.map f).sum := by
  have h : (types.map f).sum = ((types.take l).map f).sum + ((types.drop l).map f).sum := by
    rw [← List.sum_append, ← List.map_append, List.take_append_drop]
  have h2 : 0 ≤ ((types.drop l).map f).sum := by
    apply List.sum_nonneg
    intro x hx
    obtain ⟨i, _, rfl⟩ := List.mem_map.mp hx
    exact hf i
  linarith

/-- The faces of the slabs of a variant, as prefix sums of the thicknesses. -/
theorem variant_slabs (S : Services) (a : Args) (k m : Nat)
    (hm : MotherOK S a k m) (hl : LayersOK a) :
    ∃ v, variant S a k m = .ok v ∧
      v.diag = validate a.thick v.final.thickTot a.layerType ∧
      v.final.thickTot = ((a.layerType.map Int.toNat).map (thickOf a)).sum ∧
      ∀ l, l < a.layerType.length →
        slabLo a v l = -a.thick / 2 + (((a.layerType.map Int.toNat).take l).map (thickOf a)).sum ∧
        slabHi a v l =
          -a.thick / 2 + (((a.layerType.map Int.toNat).take (l + 1)).map (thickOf a)).sum := by
  obtain ⟨st, hv, hinv⟩ := variant_spec S a k m hm hl
  refine ⟨_, hv, rfl, hinv.tot_eq, ?_⟩
  intro l hlt
  have hlt' : l < (a.layerType.map Int.toNat).length := by simpa using hlt
  have hz : Variant.zAt
      { mother := motherName a k m, xM := (waferOf S a k m).dropLast.map Prod.fst,
        yM := (waferOf S a k m).dropLast.map Prod.snd, glogM := motherVolume S a k m,
        final := st, diag := validate a.thick st.thickTot a.layerType } l =
      -0.5 * a.thick + (((a.layerType.map Int.toNat).take l).map (thickOf a)).sum +
        0.5 * thickOf a ((a.layerType.map Int.toNat).getD l 0) := by
    simp only [Variant.zAt, hinv.layers_eq, layerRecs_getElem? _ _ _ _ _ _ _ _ _ _ l hlt',
      Option.map_some', Option.getD_some, layerRec]
  have ht : a.thickAt l = thickOf a ((a.layerType.map Int.toNat).getD l 0) := by
    simp [Args.thickAt, thickOf, List.getD_eq_getElem?_getD, List.getElem?_map,
      List.getElem?_eq_getElem hlt]
  rw [slabLo, slabHi, hz, ht, prefix_sum_succ _ _ l hlt']
  constructor <;> ring

/-- The thickness check in double precision reports nothing, the error or the
warning according to the rounded difference and the `double` tolerance. -/
theorem validateDouble_cases (thick thickTot : ℚ) (lt : List Int) (hne : lt ≠ []) :
    (validateDouble thick thickTot lt = [] ↔ |round64 (thickTot - thick)| < tolDouble) ∧
    (validateDouble thick thickTot lt = [Diag.error thick thickTot] ↔
      |round64 (thickTot - thick)| ≥ tolDouble ∧ thickTot > thick) ∧
    (validateDouble thick thickTot lt = [Diag.warning thick thickTot] ↔
      |round64 (thickTot - thick)| ≥ tolDouble ∧ thickTot ≤ thick) := by
  have hemp : lt.isEmpty = false := by
    cases lt with
    | nil => exact absurd rfl hne
    | cons _ _ => rfl
  by_cases h1 : |round64 (thickTot - thick)| < tolDouble
  · have hv : validateDouble thick thickTot lt = [] := by
      simp only [validateDouble, hemp, ge_iff_le, not_le.mpr h1, false_and, if_false]
    rw [hv]
    refine ⟨by simp [h1], ?_, ?_⟩
    · simp; intro h; exact absurd h1 (not_lt.mpr h)
    · simp; intro h; exact absurd h1 (not_lt.mpr h)
  · have h1' : |round64 (thickTot - thick)| ≥ tolDouble := not_lt.mp h1
    by_cases h2 : thickTot > thick
    · have hv : validateDouble thick thickTot lt = [Diag.error thick thickTot] := by
        simp [validateDouble, hemp, h2, h1']
      rw [hv]
      refine ⟨by simp [h1], by simp [h1', h2], ?_⟩
      simp; intro _; exact h2
    · have hv : validateDouble thick thickTot lt = [Diag.warning thick thickTot] := by
        simp [validateDouble, hemp, h2, h1']
      rw [hv]
      refine ⟨by simp [h1], ?_, by simp [h1', not_lt.mp h2]⟩
      simp; intro _; exact not_lt.mp h2

/-! ## Sample inputs are well-formed -/

theorem motherOK_demo_scenarioA : MotherOK demoServices scenarioA 0 0 :=
  ⟨by decide, by decide, by decide, by decide, by simp [waferOf, demoServices, squareXY],
    by simp [waferOf, demoServices, squareXY]⟩

theorem motherOK_demo_scenarioB : MotherOK demoServices scenarioB 0 0 :=
  ⟨by decide, by decide, by decide, by decide, by simp [waferOf, demoServices, squareXY],
    by simp [waferOf, demoServices, squareXY]⟩

theorem layersOK_scenarioA : LayersOK scenarioA :=
  ⟨by decide, by decide, by decide, by decide⟩

theorem layersOK_scenarioB : LayersOK scenarioB :=
  ⟨by decide, by decide, by decide, by decide⟩

/-! ## The claims -/

/-- C1. Within one variant `(k, m)` of a configuration whose stacking sequence
holds valid catalogue indices, record `l` of the layer loop belongs to type
`layerType[l]`, and for every layer type `i`: if `i` occurs `n ≥ 1` times, the
records of type `i` register exactly one solid and exactly one volume `g`,
named (after `ns.prepend`) `mother ++ layerNames[i]`, and hold exactly `n`
placements, all of `g` in the mother, with copy numbers `1, 2, ..., n` in this
order; if `i` does not occur, there is no record of type `i` at all (no solid,
no volume, no placement). -/
theorem layer_type_built_once_placed_n_times (S : Services) (a : Args) (k m : Nat)
    (hm : MotherOK S a k m) (hl : LayersOK a) (i : Nat) :
    ∃ v, variant S a k m = .ok v ∧
      v.final.layers.map (fun r => r.i) = a.layerType.map Int.toNat ∧
      (0 < a.layerType.count (i : Int) →
        ∃ g : Volume,
          g.name = S.prepend (v.mother ++ a.layerNames.getD i "") ∧
          g.solid.name = S.prepend (v.mother ++ a.layerNames.getD i "") ∧
          (v.final.layers.filter (fun r => r.i = i)).filterMap (fun r => r.solid) = [g.solid] ∧
          (v.final.layers.filter (fun r => r.i = i)).filterMap (fun r => r.volume) = [g] ∧
          (v.final.layers.filter (fun r => r.i = i)).map (fun r => (r.place.parent, r.place.child))
            = List.replicate (a.layerType.count (i : Int)) (v.glogM, some g) ∧
          (v.final.layers.filter (fun r => r.i = i)).map (fun r => r.place.copyNo)
            = (List.range (a.layerType.count (i : Int))).map (fun (c : Nat) => (c : Int) + 1)) ∧
      (a.layerType.count (i : Int) = 0 → v.final.layers.filter (fun r => r.i = i) = []) := by
  obtain ⟨st, hv, hinv⟩ := variant_spec S a k m hm hl
  have hcount := map_toNat_count a.layerType (fun t ht => (hl.type_valid t ht).1) i
  refine ⟨_, hv, ?_, ?_, ?_⟩
  · simp only [hinv.layers_eq, layerRecs_types]
  · intro hpos
    have hmem : i ∈ a.layerType.map Int.toNat := by
      rw [← List.count_pos_iff, hcount]; exact hpos
    refine ⟨layerVolume S a (motherName a k m) ((waferOf S a k m).dropLast.map Prod.fst)
      ((waferOf S a k m).dropLast.map Prod.snd) [0, 0] [0, 0] [1, 1] i, rfl, rfl, ?_, ?_, ?_, ?_⟩
    · simp only [hinv.layers_eq, layerRecs_solids, if_pos hmem]; rfl
    · simp only [hinv.layers_eq, layerRecs_volumes, if_pos hmem]
    · simp only [hinv.layers_eq, layerRecs_children, hcount]
    · simp only [hinv.layers_eq, layerRecs_copyNo, hcount]
  · intro hzero
    have h1 := layerRecs_copyNo S a (motherName a k m) ((waferOf S a k m).dropLast.map Prod.fst)
      ((waferOf S a k m).dropLast.map Prod.snd) [0, 0] [0, 0] [1, 1] (motherVolume S a k m)
      (a.layerType.map Int.toNat) i
    rw [hcount, hzero] at h1
    simp only [hinv.layers_eq]
    simpa using h1

/-- Witness of C1 on scenario B (`layerType = [0, 0]`): type 0 is built once and
placed with the copy numbers 1 and 2. -/
theorem layer_type_built_once_placed_n_times_witness :
    MotherOK demoServices scenarioB 0 0 ∧ LayersOK scenarioB ∧
    ∃ v, variant demoServices scenarioB 0 0 = .ok v ∧
      ((v.final.layers.filter (fun r => r.i = 0)).filterMap (fun r => r.solid)).length = 1 ∧
      (v.final.layers.filter (fun r => r.i = 0)).map (fun r => r.place.copyNo) = [1, 2] := by
  refine ⟨motherOK_demo_scenarioB, layersOK_scenarioB, ?_⟩
  obtain ⟨v, hv, _, hpos, _⟩ := layer_type_built_once_placed_n_times demoServices scenarioB 0 0
    motherOK_demo_scenarioB layersOK_scenarioB 0
  obtain ⟨g, _, _, hs, _, _, hc⟩ := hpos (by decide)
  refine ⟨v, hv, by rw [hs]; rfl, ?_⟩
  rw [hc]
  decide

/-- C2. In every variant the `l`-th placement has the translation `(0, 0, z)` with
`z = -moduleThickness/2 + (sum of layerThickness[layerType[j]] for j < l) +
layerThickness[layerType[l]]/2`, and after the last entry the z-cursor is
`-moduleThickness/2` plus the accumulated thickness. -/
theorem placement_translation (S : Services) (a : Args) (k m : Nat)
    (hm : MotherOK S a k m) (hl : LayersOK a) :
    ∃ v, variant S a k m = .ok v ∧
      v.final.layers.length = a.layerType.length ∧
      (∀ l, l < a.layerType.length →
        (v.final.layers[l]?).map (fun r => r.place.tran) =
          some (0, 0, -a.thick / 2 +
            ((a.layerType.take l).map (fun t => a.layerThick.getD t.toNat 0)).sum +
            a.layerThick.getD (a.layerType.getD l 0).toNat 0 / 2)) ∧
      v.final.zi = -a.thick / 2 + v.final.thickTot := by
  obtain ⟨st, hv, hinv⟩ := variant_spec S a k m hm hl
  refine ⟨_, hv, ?_, ?_, ?_⟩
  · simp only [hinv.layers_eq, layerRecs_length, List.length_map]
  · intro l hlt
    have hlt' : l < (a.layerType.map Int.toNat).length := by simpa using hlt
    simp only [hinv.layers_eq, layerRecs_getElem? _ _ _ _ _ _ _ _ _ _ l hlt', Option.map_some',
      layerRec]
    have h1 : (a.layerType.map Int.toNat).getD l 0 = (a.layerType.getD l 0).toNat := by
      simp [List.getD_eq_getElem?_getD, List.getElem?_map, List.getElem?_eq_getElem hlt]
    have h2 : ((a.layerType.map Int.toNat).take l).map (thickOf a) =
        (a.layerType.take l).map (fun t => a.layerThick.getD t.toNat 0) := by
      rw [← List.map_take, List.map_map]; rfl
    rw [h1, h2]
    simp only [thickOf]
    congr 3
    ring
  · show st.zi = -a.thick / 2 + st.thickTot
    rw [hinv.zi_eq, hinv.tot_eq]
    ring

/-- Witness of C2 on scenario B (thickness 1.0, two layers of 0.3): the
placements are at `z = -0.35` and `z = -0.05`. -/
theorem placement_translation_witness :
    MotherOK demoServices scenarioB 0 0 ∧ LayersOK scenarioB ∧
    ∃ v, variant demoServices scenarioB 0 0 = .ok v ∧
      (v.final.layers[0]?).map (fun r => r.place.tran) = some ((0, 0, -0.35) : ℚ × ℚ × ℚ) ∧
      (v.final.layers[1]?).map (fun r => r.place.tran) = some ((0, 0, -0.05) : ℚ × ℚ × ℚ) := by
  refine ⟨motherOK_demo_scenarioB, layersOK_scenarioB, ?_⟩
  obtain ⟨v, hv, _, hz, _⟩ := placement_translation demoServices scenarioB 0 0
    motherOK_demo_scenarioB layersOK_scenarioB
  refine ⟨v, hv, ?_, ?_⟩
  · rw [hz 0 (by decide)]
    norm_num [scenarioB, scenarioA]
  · rw [hz 1 (by decide)]
    norm_num [scenarioB, scenarioA]

/-- C4, as stated, fails for the `double`s of the code: with module thickness
`8.3e-22` and one layer of thickness `0.00001` the accumulated thickness is the
`double` `0.00001`, the rounded difference is again the `double` `0.00001`,
which is not below the `double` tolerance, so the error is reported, although
`D = |accumulated - moduleThickness|` is smaller than `1e-5`. -/
theorem validator_double_counterexample :
    ∃ tot, thickTotDouble [round64 0.00001] [0] = .ok tot ∧
      validateDouble (round64 8.3e-22) tot [0] = [Diag.error (round64 8.3e-22) tot] ∧
      |tot - round64 8.3e-22| < 0.00001 := by
  refine ⟨round64 (0 + round64 0.00001), rfl, ?_, ?_⟩
  · decide!
  · decide!

/-- C4, amended. In exact arithmetic: for every variant that is built from a
non-empty stacking sequence, with
`D = |accumulated - moduleThickness|`: the validator reports nothing, one
error, or one warning; nothing iff `D < 1e-5`; the error iff `D ≥ 1e-5` and
`accumulated > moduleThickness`, equivalently `accumulated ≥ moduleThickness +
1e-5`; the warning iff `D ≥ 1e-5` and `accumulated < moduleThickness`,
equivalently `accumulated ≤ moduleThickness - 1e-5`.  At `D = 1e-5` a
diagnostic is reported. -/
theorem validator_outcomes (S : Services) (a : Args) (k m : Nat) (v : Variant)
    (h : variant S a k m = .ok v) (hne : a.layerType ≠ []) :
    (v.diag = [] ∨ v.diag = [Diag.error a.thick v.final.thickTot] ∨
      v.diag = [Diag.warning a.thick v.final.thickTot]) ∧
    (v.diag = [] ↔ |v.final.thickTot - a.thick| < 0.00001) ∧
    (v.diag = [Diag.error a.thick v.final.thickTot] ↔
      |v.final.thickTot - a.thick| ≥ 0.00001 ∧ v.final.thickTot > a.thick) ∧
    (v.diag = [Diag.error a.thick v.final.thickTot] ↔
      v.final.thickTot ≥ a.thick + 0.00001) ∧
    (v.diag = [Diag.warning a.thick v.final.thickTot] ↔
      |v.final.thickTot - a.thick| ≥ 0.00001 ∧ v.final.thickTot < a.thick) ∧
    (v.diag = [Diag.warning a.thick v.final.thickTot] ↔
      v.final.thickTot ≤ a.thick - 0.00001) ∧
    (|v.final.thickTot - a.thick| = 0.00001 → v.diag ≠ []) := by
  rw [variant_diag S a k m v h]
  obtain ⟨h1, h2, h3, h4, h5, h6⟩ := validate_cases v.final.thickTot a.thick a.layerType hne
  refine ⟨h6, h1, h2, h3, h4, h5, ?_⟩
  intro hD hnil
  have := h1.mp hnil
  rw [hD] at this
  exact lt_irrefl _ this

/-- Witness of the amended C4 on scenario B: the accumulated thickness 0.6 is below the
module thickness 1.0, and the validator reports the warning. -/
theorem validator_outcomes_witness :
    ∃ v, variant demoServices scenarioB 0 0 = .ok v ∧ scenarioB.layerType ≠ [] ∧
      v.diag = [Diag.warning 1.0 0.6] := by
  obtain ⟨v, hv, h1⟩ := variant_thickTot demoServices scenarioB 0 0
    motherOK_demo_scenarioB layersOK_scenarioB
  have h3 : v.final.thickTot = 0.6 := by
    rw [h1]; norm_num [scenarioB, scenarioA]
  have hne : scenarioB.layerType ≠ [] := by decide
  have h4 := (validator_outcomes demoServices scenarioB 0 0 v hv hne).2.2.2.2.2.1
  have h5 : v.diag = [Diag.warning scenarioB.thick v.final.thickTot] := by
    rw [h4, h3]; norm_num [scenarioB, scenarioA]
  refine ⟨v, hv, hne, ?_⟩
  rw [h5, h3]
  rfl

/-- C5. A well-formed configuration is constructed in full, and the result
holds exactly `length(tags) * length(placementIndex)` variants, each with its
one mother solid and volume, in `k`-major, `m`-minor order; the mother of the
pair `(k, m)` (solid and volume) is named, after `ns.prepend`,
`parentName ++ placementIndexTags[m] ++ tags[k]` and is made of the module
material. -/
theorem mothers_in_loop_order (S : Services) (a : Args) (hwf : WellFormed S a) :
    ∃ out, construct S a = .ok out ∧
      out.length = a.tags.length * a.placementIndex.length ∧
      out.map (fun v => (v.glogM.solid.name, v.glogM.name, v.glogM.material)) =
        (List.range a.tags.length).flatMap (fun k =>
          (List.range a.placementIndex.length).map (fun m =>
            (S.prepend (a.parentName ++ a.placementIndexTags.getD m "" ++ a.tags.getD k ""),
             S.prepend (a.parentName ++ a.placementIndexTags.getD m "" ++ a.tags.getD k ""),
             a.material))) := by
  obtain ⟨out, hout, hall⟩ := construct_spec S a hwf
  refine ⟨out, hout, ?_, ?_⟩
  · rw [← hall.length_eq, length_variantPairs]
  · rw [forall₂_map_eq (fun v => (v.glogM.solid.name, v.glogM.name, v.glogM.material))
      (fun p => (S.prepend (motherName a p.1 p.2), S.prepend (motherName a p.1 p.2), a.material))
      hall ?_]
    · simp only [variantPairs, List.map_flatMap, List.map_map]
      rfl
    · intro p v hp hv
      rw [mem_variantPairs] at hp
      obtain ⟨_, _, _, hg, _⟩ := variant_fields S a p.1 p.2 (hwf.motherOK hp.1 hp.2)
        hwf.layers v hv
      show (v.glogM.solid.name, v.glogM.name, v.glogM.material) = _
      rw [hg]
      rfl

/-- Witness of C5: `tags = ["A", "B"]`, `placementIndexTags = ["p"]` give
the two mothers `parent ++ p ++ A` and `parent ++ p ++ B`, in this order. -/
theorem mothers_in_loop_order_witness :
    WellFormed demoServices scenarioD ∧
    ∃ out, construct demoServices scenarioD = .ok out ∧
      out.map (fun v => (v.glogM.solid.name, v.glogM.name, v.glogM.material)) =
        [("hgcal:parentpA", "hgcal:parentpA", "materials:Air"),
         ("hgcal:parentpB", "hgcal:parentpB", "materials:Air")] := by
  refine ⟨wellFormed_demo_scenarioD, ?_⟩
  obtain ⟨out, hout, _, hmap⟩ := mothers_in_loop_order demoServices scenarioD
    wellFormed_demo_scenarioD
  refine ⟨out, hout, ?_⟩
  rw [hmap]
  decide

/-- C6. Every solid that the construction of a well-formed configuration
builds is a straight prism: the mother solid of every variant has the z-planes
`(-moduleThickness/2, +moduleThickness/2)`; the solid built for catalogue type
`i`, the solid of the volume registered with it, and the solid of every volume
of type `i` that is placed (built in this or in an earlier iteration) have the
z-planes `(-layerThickness[i]/2, +layerThickness[i]/2)`; and for all of them
the x- and y-offsets are `0` and the scale is `1` at both planes. -/
theorem solids_are_straight_prisms (S : Services) (a : Args) (hwf : WellFormed S a) :
    ∃ out, construct S a = .ok out ∧ ∀ v ∈ out,
      (v.glogM.solid.z = [-a.thick / 2, a.thick / 2] ∧ v.glogM.solid.zx = [0, 0] ∧
        v.glogM.solid.zy = [0, 0] ∧ v.glogM.solid.zscale = [1, 1]) ∧
      ∀ r ∈ v.final.layers,
        (∀ s, r.solid = some s ∨ (∃ g, r.volume = some g ∧ g.solid = s) ∨
              (∃ g, r.place.child = some g ∧ g.solid = s) →
          s.z = [-a.layerThick.getD r.i 0 / 2, a.layerThick.getD r.i 0 / 2] ∧
          s.zx = [0, 0] ∧ s.zy = [0, 0] ∧ s.zscale = [1, 1]) := by
  obtain ⟨out, hout, hall⟩ := construct_spec S a hwf
  refine ⟨out, hout, ?_⟩
  intro v hv
  obtain ⟨p, hp, hpv⟩ := forall₂_mem_right hall v hv
  rw [mem_variantPairs] at hp
  obtain ⟨_, _, _, hg, hinv⟩ := variant_fields S a p.1 p.2 (hwf.motherOK hp.1 hp.2)
    hwf.layers v hpv
  refine ⟨?_, ?_⟩
  · rw [hg]
    exact ⟨half_pair a.thick, rfl, rfl, rfl⟩
  · intro r hr s hs
    simp only [hinv.layers_eq, layerRecs, List.mem_map] at hr
    obtain ⟨l, _, rfl⟩ := hr
    have key : (layerSolid S a (motherName a p.1 p.2)
        ((waferOf S a p.1 p.2).dropLast.map Prod.fst) ((waferOf S a p.1 p.2).dropLast.map Prod.snd)
        [0, 0] [0, 0] [1, 1] ((a.layerType.map Int.toNat).getD l 0)) = s := by
      rcases hs with hs | ⟨g, hg1, hg2⟩ | ⟨g, hg1, hg2⟩
      · simp only [layerRec] at hs
        split_ifs at hs
        exact Option.some.inj hs
      · simp only [layerRec] at hg1
        split_ifs at hg1
        rw [← hg2, ← Option.some.inj hg1]
        rfl
      · simp only [layerRec] at hg1
        rw [← hg2, ← Option.some.inj hg1]
        rfl
    rw [← key]
    exact ⟨half_pair _, rfl, rfl, rfl⟩

/-- Witness of C6 on the two variants of scenario D. -/
theorem solids_are_straight_prisms_witness :
    WellFormed demoServices scenarioD ∧
    ∃ out, construct demoServices scenarioD = .ok out ∧ ∀ v ∈ out,
      v.glogM.solid.z = [-scenarioD.thick / 2, scenarioD.thick / 2] ∧
      v.glogM.solid.zscale = [1, 1] := by
  refine ⟨wellFormed_demo_scenarioD, ?_⟩
  obtain ⟨out, hout, h⟩ := solids_are_straight_prisms demoServices scenarioD
    wellFormed_demo_scenarioD
  exact ⟨out, hout, fun v hv => ⟨(h v hv).1.1, (h v hv).1.2.2.2⟩⟩

/-- C7, as stated, fails: the provider of `demoServices` returns the closed
outline `squareXY` of five vertices, and the mother solid of the variant
`(0, 0)` of scenario A has not that vertex list as its footprint. -/
theorem mother_footprint_counterexample :
    ∃ v, variant demoServices scenarioA 0 0 = .ok v ∧
      ¬ (v.glogM.solid.x = (demoServices.waferXY 11 0 (167 + 1) 0 0 0).map Prod.fst ∧
         v.glogM.solid.y = (demoServices.waferXY 11 0 (167 + 1) 0 0 0).map Prod.snd) := by
  obtain ⟨st, hv, _⟩ := variant_spec demoServices scenarioA 0 0 motherOK_demo_scenarioA
    layersOK_scenarioA
  refine ⟨_, hv, ?_⟩
  rintro ⟨hx, _⟩
  have hlen := congrArg List.length hx
  simp [motherVolume, motherSolid, waferOf, demoServices, squareXY] at hlen

/-- C7, amended. For every variant `(k, m)` the footprint of the mother solid is
the provider's output for `(partialTypes[k], placementIndex[m], waferSize +
sensorSeparation)` at the origin with its last vertex left out, the
coordinates of the other vertices unchanged and in the same order. -/
theorem mother_footprint (S : Services) (a : Args) (k m : Nat)
    (hm : MotherOK S a k m) (hl : LayersOK a) :
    ∃ v, variant S a k m = .ok v ∧
      v.glogM.solid.x = (S.waferXY (a.partialTypes.getD k 0) (a.placementIndex.getD m 0)
        (a.waferSize + a.waferSepar) 0 0 0).dropLast.map Prod.fst ∧
      v.glogM.solid.y = (S.waferXY (a.partialTypes.getD k 0) (a.placementIndex.getD m 0)
        (a.waferSize + a.waferSepar) 0 0 0).dropLast.map Prod.snd := by
  obtain ⟨st, hv, _⟩ := variant_spec S a k m hm hl
  exact ⟨_, hv, rfl, rfl⟩

/-- Witness of the amended C7 on scenario A: the footprint is the square
without the closing vertex. -/
theorem mother_footprint_witness :
    MotherOK demoServices scenarioA 0 0 ∧ LayersOK scenarioA ∧
    ∃ v, variant demoServices scenarioA 0 0 = .ok v ∧
      v.glogM.solid.x = [1, -1, -1, 1] ∧ v.glogM.solid.y = [1, 1, -1, -1] := by
  refine ⟨motherOK_demo_scenarioA, layersOK_scenarioA, ?_⟩
  obtain ⟨v, hv, hx, hy⟩ := mother_footprint demoServices scenarioA 0 0
    motherOK_demo_scenarioA layersOK_scenarioA
  refine ⟨v, hv, ?_, ?_⟩
  · rw [hx]; simp [demoServices, squareXY]
  · rw [hy]; simp [demoServices, squareXY]

/-- C8, as stated, fails: in scenario E the tags are pairwise distinct, the
placement tags are pairwise distinct, the layer names are pairwise distinct and
the name qualification is injective, but the variants `(k, m) = (0, 0)` and
`(1, 1)` both register their mother under `parentName ++ "pAB"`
(`"p" ++ "AB" = "pA" ++ "B"`). -/
theorem names_unique_counterexample :
    scenarioE.tags.Nodup ∧ scenarioE.placementIndexTags.Nodup ∧ scenarioE.layerNames.Nodup ∧
    Function.Injective demoServices.prepend ∧
    ∃ out, construct demoServices scenarioE = .ok out ∧
      ¬ (out.flatMap Variant.solidNames).Nodup := by
  refine ⟨by decide, by decide, by decide, demo_prepend_injective, ?_⟩
  obtain ⟨out, hout, _, _, hmap⟩ := construct_names demoServices scenarioE
    wellFormed_demo_scenarioE
  refine ⟨out, hout, ?_⟩
  intro hnd
  have hsub : List.Sublist (out.map (fun v => v.glogM.solid.name))
      (out.flatMap Variant.solidNames) :=
    map_sublist_flatMap_cons (fun v : Variant => v.glogM.solid.name)
      (fun v : Variant =>
        v.final.layers.filterMap (fun r : LayerRec => r.solid.map (fun s : Solid => s.name))) out
  have h1 : (out.map (fun v => v.glogM.solid.name)).Nodup := List.Nodup.sublist hsub hnd
  rw [hmap] at h1
  revert h1
  decide

/-- C8, amended. If the configuration is well-formed, the name qualification
`ns.prepend` is injective, the tags are pairwise distinct and all of one
length, the placement tags are pairwise distinct and all of one length, and
the layer names are pairwise distinct and none of them is empty, then the
construction is carried out and all names under which it registers solids
(every mother and every layer solid of every variant) are pairwise distinct,
and so are all names under which it registers volumes. -/
theorem names_unique (S : Services) (a : Args) (hwf : WellFormed S a)
    (hinj : Function.Injective S.prepend)
    (htags : a.tags.Nodup) (hptags : a.placementIndexTags.Nodup) (hnames : a.layerNames.Nodup)
    (htl : ∀ s ∈ a.tags, ∀ t ∈ a.tags, s.length = t.length)
    (hpl : ∀ s ∈ a.placementIndexTags, ∀ t ∈ a.placementIndexTags, s.length = t.length)
    (hne : "" ∉ a.layerNames) :
    ∃ out, construct S a = .ok out ∧ (out.flatMap Variant.solidNames).Nodup ∧
      (out.flatMap Variant.volumeNames).Nodup := by
  obtain ⟨out, hout, hs, hv, _⟩ := construct_names S a hwf
  have h := nodup_flatMap_variantNames S a hwf hinj htags hptags hnames htl hpl hne
  exact ⟨out, hout, by rw [hs]; exact h, by rw [hv]; exact h⟩

/-- Witness of the amended C8 on scenario D (tags `"A"`, `"B"`, placement tag
`"p"`, layer names `"Cu"`, `"Pb"`). -/
theorem names_unique_witness :
    WellFormed demoServices scenarioD ∧ Function.Injective demoServices.prepend ∧
    ∃ out, construct demoServices scenarioD = .ok out ∧
      (out.flatMap Variant.solidNames).Nodup ∧ (out.flatMap Variant.volumeNames).Nodup :=
  ⟨wellFormed_demo_scenarioD, demo_prepend_injective,
    names_unique demoServices scenarioD wellFormed_demo_scenarioD demo_prepend_injective
      (by decide) (by decide) (by decide) (by decide) (by decide) (by decide)⟩

/-- C9, as stated, fails: in scenario A the z-cursor is at `-0.5 + 0.4 = -0.1`
when layer 1 (thickness 0.6) is placed, so layer 1 is placed at `z = 0.2`,
not at `z = 0.1`. -/
theorem scenario_A_counterexample :
    ∃ v, variant demoServices scenarioA 0 0 = .ok v ∧
      ¬ (v.final.thickTot = 1.0 ∧ v.diag = [] ∧
        v.final.layers.map (fun r => (r.i, r.place.tran)) =
          [(0, ((0, 0, -0.3) : ℚ × ℚ × ℚ)), (1, ((0, 0, 0.1) : ℚ × ℚ × ℚ))]) := by
  obtain ⟨st, hv, hinv⟩ := variant_spec demoServices scenarioA 0 0 motherOK_demo_scenarioA
    layersOK_scenarioA
  refine ⟨_, hv, ?_⟩
  rintro ⟨_, _, h⟩
  change st.layers.map (fun r => (r.i, r.place.tran)) = _ at h
  rw [hinv.layers_eq] at h
  norm_num [layerRecs, layerRec, List.range_succ, thickOf, scenarioA] at h

/-- C9 (scenario A), amended. With module thickness 1.0, stacking sequence
`[0, 1]` and layer thicknesses `[0.4, 0.6]` every variant is built, its
accumulated thickness is 1.0, the validator reports nothing, and the two
placements are layer 0 at `z = -0.3` and layer 1 at `z = 0.2`. -/
theorem scenario_A (S : Services) (a : Args) (k m : Nat) (hm : MotherOK S a k m)
    (hthick : a.thick = 1.0) (htype : a.layerType = [0, 1]) (hth : a.layerThick = [0.4, 0.6])
    (hnames : a.layerNames.length = 2) (hmat : a.materials.length = 2) :
    ∃ v, variant S a k m = .ok v ∧ v.final.thickTot = 1.0 ∧ v.diag = [] ∧
      v.final.layers.map (fun r => (r.i, r.place.tran)) =
        [(0, ((0, 0, -0.3) : ℚ × ℚ × ℚ)), (1, ((0, 0, 0.2) : ℚ × ℚ × ℚ))] := by
  have hl : LayersOK a := by
    refine ⟨by rw [hnames, hmat], by rw [hth, hmat]; rfl, ?_, ?_⟩
    · rw [htype, hmat]; decide
    · rw [htype]; decide
  obtain ⟨st, hv, hinv⟩ := variant_spec S a k m hm hl
  have htot : st.thickTot = 1.0 := by
    rw [hinv.tot_eq, htype]
    norm_num [thickOf, hth]
  refine ⟨_, hv, htot, ?_, ?_⟩
  · show validate a.thick st.thickTot a.layerType = []
    rw [(validate_cases st.thickTot a.thick a.layerType (by rw [htype]; simp)).1, htot, hthick]
    norm_num
  · show st.layers.map (fun r => (r.i, r.place.tran)) = _
    rw [hinv.layers_eq, htype]
    norm_num [layerRecs, layerRec, List.range_succ, thickOf, hth, hthick]

/-- Witness of the amended C9: scenario A with the sample collaborators. -/
theorem scenario_A_witness :
    MotherOK demoServices scenarioA 0 0 ∧
    ∃ v, variant demoServices scenarioA 0 0 = .ok v ∧ v.final.thickTot = 1.0 ∧ v.diag = [] ∧
      v.final.layers.map (fun r => (r.i, r.place.tran)) =
        [(0, ((0, 0, -0.3) : ℚ × ℚ × ℚ)), (1, ((0, 0, 0.2) : ℚ × ℚ × ℚ))] :=
  ⟨motherOK_demo_scenarioA,
    scenario_A demoServices scenarioA 0 0 motherOK_demo_scenarioA rfl rfl rfl rfl rfl⟩

/-- C10. With an empty stacking sequence, whatever the module thickness, every
variant whose mother can be built is built, and it registers only its mother:
the layer loop leaves no record (no layer solid, no layer volume, no
placement), no volume is cached, and the validator reports neither a warning
nor an error. -/
theorem empty_stack_only_mother (S : Services) (a : Args) (k m : Nat)
    (hm : MotherOK S a k m) (hempty : a.layerType = []) :
    ∃ v, variant S a k m = .ok v ∧ v.final.layers = [] ∧
      (∀ g ∈ v.final.glogs, g = none) ∧ v.diag = [] := by
  refine ⟨_, variant_of_loop S a k m hm _ (by rw [hempty]; rfl), rfl, ?_, ?_⟩
  · intro g hg
    exact (List.mem_replicate.mp hg).2
  · simp [validate, hempty]

/-- Witness of C10: scenario A with the stacking sequence emptied and a module
thickness of 1000. -/
theorem empty_stack_only_mother_witness :
    ∃ v, variant demoServices { scenarioA with layerType := [], thick := 1000 } 0 0 = .ok v ∧
      v.final.layers = [] ∧ v.diag = [] := by
  obtain ⟨v, hv, h1, _, h2⟩ := empty_stack_only_mother demoServices
    { scenarioA with layerType := [], thick := 1000 } 0 0
    ⟨by decide, by decide, by decide, by decide, by simp [waferOf, demoServices, squareXY],
      by simp [waferOf, demoServices, squareXY]⟩ rfl
  exact ⟨v, hv, h1, h2⟩

/-- C11. A thickness diagnostic neither aborts nor alters the construction of a
well-formed configuration: the construction returns all
`length(tags) * length(placementIndex)` variants, every one of them, whatever
the validator reports for it or for an earlier one, with all
`length(layerType)` placements, and the run that leaves the validator out
registers the same solids, volumes and placements. -/
theorem diagnostics_do_not_alter_construction (S : Services) (a : Args)
    (hwf : WellFormed S a) :
    ∃ out, construct S a = .ok out ∧
      out.length = a.tags.length * a.placementIndex.length ∧
      (∀ v ∈ out, v.final.layers.length = a.layerType.length) ∧
      constructQuiet S a = .ok (out.map Variant.registered) := by
  obtain ⟨vf, hvf, hout⟩ := construct_of_variants S a (fun k hk m hm => by
    obtain ⟨st, hv, _⟩ := variant_spec S a k m (hwf.motherOK hk hm) hwf.layers
    exact ⟨_, hv⟩)
  refine ⟨_, hout, ?_, ?_, ?_⟩
  · rw [List.length_map, length_variantPairs]
  · intro v hv
    obtain ⟨p, hp, rfl⟩ := List.mem_map.mp hv
    rw [mem_variantPairs] at hp
    obtain ⟨_, _, _, _, hinv⟩ := variant_fields S a p.1 p.2 (hwf.motherOK hp.1 hp.2)
      hwf.layers _ (hvf p.1 hp.1 p.2 hp.2)
    rw [hinv.layers_eq, layerRecs_length, List.length_map]
  · rw [constructQuiet_eq S a (fun k m => (vf k m).registered)
      (fun k hk m hm => variantQuiet_of_variant S a k m _ (hvf k hk m hm))]
    rw [List.map_map]
    rfl

/-- Witness of C11 on scenario F: both variants report the underfill warning,
both are built with their two placements, and the run without the validator
registers the same. -/
theorem diagnostics_do_not_alter_construction_witness :
    WellFormed demoServices scenarioF ∧
    ∃ out, construct demoServices scenarioF = .ok out ∧ out.length = 2 ∧
      (∀ v ∈ out, v.diag = [Diag.warning 2.0 1.0] ∧ v.final.layers.length = 2) ∧
      constructQuiet demoServices scenarioF = .ok (out.map Variant.registered) := by
  refine ⟨wellFormed_demo_scenarioF, ?_⟩
  obtain ⟨out, hout, hlen, hlay, hquiet⟩ := diagnostics_do_not_alter_construction
    demoServices scenarioF wellFormed_demo_scenarioF
  obtain ⟨out', hout', hall⟩ := construct_spec demoServices scenarioF wellFormed_demo_scenarioF
  have heq : out' = out := by
    rw [hout] at hout'
    injection hout' with h
    exact h.symm
  subst heq
  refine ⟨out', hout, hlen, ?_, hquiet⟩
  intro v hv
  obtain ⟨p, hp, hpv⟩ := forall₂_mem_right hall v hv
  rw [mem_variantPairs] at hp
  exact ⟨scenarioF_warning p.1 p.2 v (wellFormed_demo_scenarioF.motherOK hp.1 hp.2) hpv,
    hlay v hv⟩

/-- C12, as stated, fails: in scenario G `partialTypes` is longer than `tags` and
`placementIndexTags` is longer than `placementIndex`, so both pairs of lists
are mismatched, and the construction is carried out without any out-of-range
access. -/
theorem mismatched_lists_counterexample :
    scenarioG.tags.length ≠ scenarioG.partialTypes.length ∧
    scenarioG.placementIndex.length ≠ scenarioG.placementIndexTags.length ∧
    ∃ out, construct demoServices scenarioG = .ok out := by
  refine ⟨by decide, by decide, ?_⟩
  obtain ⟨vf, _, hout⟩ := construct_of_variants demoServices scenarioG (fun k hk m hm => by
    have hmo : MotherOK demoServices scenarioG k m :=
      ⟨hk, Nat.lt_trans hk (by decide), hm, Nat.lt_trans hm (by decide),
        by simp [waferOf, demoServices, squareXY], by simp [waferOf, demoServices, squareXY]⟩
    obtain ⟨st, hv, _⟩ := variant_spec demoServices scenarioG k m hmo
      ⟨by decide, by decide, by decide, by decide⟩
    exact ⟨_, hv⟩)
  exact ⟨_, hout⟩

/-- C12, amended. If `partialTypes` is shorter than `tags` and `placementIndex`
is not empty, or `placementIndexTags` is shorter than `placementIndex` and
`tags` is not empty, the construction performs an out-of-range list access:
the bounds-checked embedding returns the error. -/
theorem short_list_out_of_range (S : Services) (a : Args)
    (h : (a.partialTypes.length < a.tags.length ∧ a.placementIndex ≠ []) ∨
         (a.placementIndexTags.length < a.placementIndex.length ∧ a.tags ≠ [])) :
    construct S a = .error .outOfRange := by
  rcases h with ⟨hlt, hne⟩ | ⟨hlt, hne⟩
  · exact construct_error_of_variant S a a.partialTypes.length 0 hlt
      (List.length_pos.mpr hne) (variant_error_of_partialType S a _ _ (Nat.le_refl _))
  · exact construct_error_of_variant S a 0 a.placementIndexTags.length
      (List.length_pos.mpr hne) hlt (variant_error_of_placementTag S a _ _ (Nat.le_refl _))

/-- Witness of the amended C12 on scenario H (two tags, one truncation type). -/
theorem short_list_out_of_range_witness :
    (scenarioH.partialTypes.length < scenarioH.tags.length ∧ scenarioH.placementIndex ≠ []) ∧
    construct demoServices scenarioH = .error .outOfRange :=
  ⟨⟨by decide, by decide⟩,
    short_list_out_of_range demoServices scenarioH (Or.inl ⟨by decide, by decide⟩)⟩

/-- C13. For every variant whose provider output is a non-empty vertex list of
length `n`, the footprint of the mother solid is the list of the first `n - 1`
vertices of the provider's output, in their order and with their x and y
coordinates unchanged (so of length `n - 1`), and every layer solid of the
variant, built or placed, has the very same footprint. -/
theorem footprint_shared_by_mother_and_layers (S : Services) (a : Args) (k m : Nat)
    (hm : MotherOK S a k m) (hl : LayersOK a) :
    ∃ v, variant S a k m = .ok v ∧
      v.glogM.solid.x = ((waferOf S a k m).take ((waferOf S a k m).length - 1)).map Prod.fst ∧
      v.glogM.solid.y = ((waferOf S a k m).take ((waferOf S a k m).length - 1)).map Prod.snd ∧
      v.glogM.solid.x.length = (waferOf S a k m).length - 1 ∧
      v.glogM.solid.y.length = (waferOf S a k m).length - 1 ∧
      ∀ r ∈ v.final.layers, ∀ s,
        (r.solid = some s ∨ ∃ g, r.place.child = some g ∧ g.solid = s) →
        s.x = v.glogM.solid.x ∧ s.y = v.glogM.solid.y := by
  obtain ⟨st, hv, hinv⟩ := variant_spec S a k m hm hl
  refine ⟨_, hv, ?_, ?_, ?_, ?_, ?_⟩
  · show (waferOf S a k m).dropLast.map Prod.fst = _
    rw [List.dropLast_eq_take]
  · show (waferOf S a k m).dropLast.map Prod.snd = _
    rw [List.dropLast_eq_take]
  · show ((waferOf S a k m).dropLast.map Prod.fst).length = _
    simp
  · show ((waferOf S a k m).dropLast.map Prod.snd).length = _
    simp
  · intro r hr s hs
    change r ∈ st.layers at hr
    simp only [hinv.layers_eq, layerRecs, List.mem_map] at hr
    obtain ⟨l, _, rfl⟩ := hr
    rcases hs with hs | ⟨g, hg1, hg2⟩
    · simp only [layerRec] at hs
      split_ifs at hs
      rw [← Option.some.inj hs]
      exact ⟨rfl, rfl⟩
    · simp only [layerRec] at hg1
      rw [← hg2, ← Option.some.inj hg1]
      exact ⟨rfl, rfl⟩

/-- Witness of C13 on scenario A: the square without its closing vertex is the
footprint of the mother and of both layer solids. -/
theorem footprint_shared_by_mother_and_layers_witness :
    MotherOK demoServices scenarioA 0 0 ∧ LayersOK scenarioA ∧
    ∃ v, variant demoServices scenarioA 0 0 = .ok v ∧
      v.glogM.solid.x.length = 4 ∧
      ∀ r ∈ v.final.layers, ∀ s, r.solid = some s →
        s.x = v.glogM.solid.x ∧ s.y = v.glogM.solid.y := by
  refine ⟨motherOK_demo_scenarioA, layersOK_scenarioA, ?_⟩
  obtain ⟨v, hv, _, _, hlen, _, hlay⟩ := footprint_shared_by_mother_and_layers demoServices
    scenarioA 0 0 motherOK_demo_scenarioA layersOK_scenarioA
  refine ⟨v, hv, ?_, fun r hr s hs => hlay r hr s (Or.inl hs)⟩
  rw [hlen]
  simp [waferOf, demoServices, squareXY]

/-- C14. Within one variant the layer loop reaches the state before every
entry `l` of the stacking sequence, and in that state the copy number of every
catalogue type `i` is `1 +` the number of occurrences of `i` among
`layerType[0..l)`, and it is `1` if and only if no volume is cached for type
`i`; the state after the last entry is the one the variant ends in; and every
placement places a volume that was registered in the same or in an earlier
iteration of the same variant, never an unbuilt one. -/
theorem copy_number_sentinel (S : Services) (a : Args) (k m : Nat)
    (hm : MotherOK S a k m) (hl : LayersOK a) :
    ∃ v, variant S a k m = .ok v ∧
      stateBefore S a k m a.layerType.length = .ok v.final ∧
      (∀ l, l ≤ a.layerType.length → ∃ st, stateBefore S a k m l = .ok st ∧
        ∀ i, i < a.materials.length →
          st.copyNumber[i]? = some (1 + ((a.layerType.take l).count (i : Int) : Int)) ∧
          (st.copyNumber[i]? = some 1 ↔ st.glogs[i]? = some none)) ∧
      (∀ l, l < a.layerType.length → ∃ r g, v.final.layers[l]? = some r ∧
        r.place.child = some g ∧
        ∃ l' r', l' ≤ l ∧ v.final.layers[l']? = some r' ∧ r'.volume = some g) := by
  obtain ⟨st, hst, hinv⟩ := stateBefore_inv S a k m hl a.layerType.length
  have hst' := hst
  rw [stateBefore, List.take_length] at hst'
  rw [List.take_length] at hinv
  refine ⟨_, variant_of_loop S a k m hm st hst', hst, ?_, ?_⟩
  · intro l _
    obtain ⟨sl, hsl, hinvl⟩ := stateBefore_inv S a k m hl l
    refine ⟨sl, hsl, ?_⟩
    intro i hi
    have hcount := map_toNat_count (a.layerType.take l)
      (fun t ht => (hl.type_valid t (List.mem_of_mem_take ht)).1) i
    have hc := hinvl.copy_eq i hi
    have hg := hinvl.glogs_eq i hi
    rw [hcount] at hc
    refine ⟨hc, ?_⟩
    rw [hc, hg]
    by_cases hmem : i ∈ (a.layerType.take l).map Int.toNat
    · have hpos : 0 < (a.layerType.take l).count (i : Int) := by
        rw [← hcount]; exact List.count_pos_iff.mpr hmem
      simp only [if_pos hmem, Option.some.injEq]
      constructor
      · intro h; omega
      · intro h; cases h
    · have hzero : (a.layerType.take l).count (i : Int) = 0 := by
        rw [← hcount]; exact List.count_eq_zero.mpr hmem
      rw [if_neg hmem, hzero]
      simp
  · intro l hlt
    have hlt' : l < (a.layerType.map Int.toNat).length := by simpa using hlt
    obtain ⟨l', hle, heq, hnot⟩ := first_occurrence (a.layerType.map Int.toNat) l hlt'
    have hlt'' : l' < (a.layerType.map Int.toNat).length := Nat.lt_of_le_of_lt hle hlt'
    refine ⟨layerRec S a (motherName a k m) ((waferOf S a k m).dropLast.map Prod.fst)
        ((waferOf S a k m).dropLast.map Prod.snd) [0, 0] [0, 0] [1, 1] (motherVolume S a k m)
        ((a.layerType.map Int.toNat).take l) ((a.layerType.map Int.toNat).getD l 0),
      layerVolume S a (motherName a k m) ((waferOf S a k m).dropLast.map Prod.fst)
        ((waferOf S a k m).dropLast.map Prod.snd) [0, 0] [0, 0] [1, 1]
        ((a.layerType.map Int.toNat).getD l 0), ?_, rfl, l',
      layerRec S a (motherName a k m) ((waferOf S a k m).dropLast.map Prod.fst)
        ((waferOf S a k m).dropLast.map Prod.snd) [0, 0] [0, 0] [1, 1] (motherVolume S a k m)
        ((a.layerType.map Int.toNat).take l') ((a.layerType.map Int.toNat).getD l' 0),
      hle, ?_, ?_⟩
    · show st.layers[l]? = _
      rw [hinv.layers_eq, layerRecs_getElem? _ _ _ _ _ _ _ _ _ _ l hlt']
    · show st.layers[l']? = _
      rw [hinv.layers_eq, layerRecs_getElem? _ _ _ _ _ _ _ _ _ _ l' hlt'']
    · simp only [layerRec, heq, if_neg hnot]

/-- Witness of C14 on scenario B (`layerType = [0, 0]`): before entry 0 the copy
number of type 0 is 1 and no volume is cached; before entry 1 it is 2. -/
theorem copy_number_sentinel_witness :
    MotherOK demoServices scenarioB 0 0 ∧ LayersOK scenarioB ∧
    ∃ st0 st1, stateBefore demoServices scenarioB 0 0 0 = .ok st0 ∧
      st0.copyNumber[0]? = some 1 ∧ st0.glogs[0]? = some none ∧
      stateBefore demoServices scenarioB 0 0 1 = .ok st1 ∧ st1.copyNumber[0]? = some 2 := by
  refine ⟨motherOK_demo_scenarioB, layersOK_scenarioB, ?_⟩
  obtain ⟨v, _, _, hpre, _⟩ := copy_number_sentinel demoServices scenarioB 0 0
    motherOK_demo_scenarioB layersOK_scenarioB
  obtain ⟨st0, h0, hc0⟩ := hpre 0 (by decide)
  obtain ⟨st1, h1, hc1⟩ := hpre 1 (by decide)
  obtain ⟨hc0a, hc0b⟩ := hc0 0 (by decide)
  obtain ⟨hc1a, _⟩ := hc1 0 (by decide)
  have e0 : (1 + ((scenarioB.layerType.take 0).count ((0 : Nat) : Int) : Int)) = 1 := by decide
  have e1 : (1 + ((scenarioB.layerType.take 1).count ((0 : Nat) : Int) : Int)) = 2 := by decide
  rw [e0] at hc0a
  rw [e1] at hc1a
  exact ⟨st0, st1, h0, hc0a, hc0b.mp hc0a, h1, hc1a⟩

/-- C16. If `tags` and `partialTypes` have one length, `placementIndex` and
`placementIndexTags` have one length, the three catalogue lists have one
length, every entry of `layerType` is a non-negative index smaller than the
catalogue length, and the provider returns a non-empty vertex list for every
`(k, m)`, then no list access of the construction is out of range: every
variant returns a result, and so does the construction, with all
`length(tags) * length(placementIndex)` variants. -/
theorem no_out_of_range_access (S : Services) (a : Args)
    (htags : a.tags.length = a.partialTypes.length)
    (hplace : a.placementIndex.length = a.placementIndexTags.length)
    (hnames : a.layerNames.length = a.materials.length)
    (hthick : a.layerThick.length = a.materials.length)
    (htype : ∀ t ∈ a.layerType, 0 ≤ t ∧ t < a.materials.length)
    (hwxy : ∀ k m, k < a.tags.length → m < a.placementIndex.length →
      S.waferXY (a.partialTypes.getD k 0) (a.placementIndex.getD m 0)
        (a.waferSize + a.waferSepar) 0 0 0 ≠ []) :
    (∀ k m, k < a.tags.length → m < a.placementIndex.length →
      ∃ v, variant S a k m = .ok v) ∧
    ∃ out, construct S a = .ok out ∧
      out.length = a.tags.length * a.placementIndex.length := by
  have hvar : ∀ k, k < a.tags.length → ∀ m, m < a.placementIndex.length →
      ∃ v, variant S a k m = .ok v := fun k hk m hm =>
    variant_ok S a k m hk (htags ▸ hk) hm (hplace ▸ hm) (hwxy k m hk hm) hnames hthick htype
  refine ⟨fun k m hk hm => hvar k hk m hm, ?_⟩
  obtain ⟨vf, _, hout⟩ := construct_of_variants S a hvar
  exact ⟨_, hout, by rw [List.length_map, length_variantPairs]⟩

/-- Witness of C16 on scenario D. -/
theorem no_out_of_range_access_witness :
    ∃ out, construct demoServices scenarioD = .ok out ∧ out.length = 2 :=
  (no_out_of_range_access demoServices scenarioD (by decide) (by decide) (by decide)
    (by decide) (by decide) (fun _ _ _ _ => by simp [demoServices, squareXY])).2

/-- C17. In every variant whose layer thicknesses are all non-negative the slabs
`[z_l - t_l/2, z_l + t_l/2]` tile the depth axis: the first slab starts at
`-moduleThickness/2`, and the upper face of slab `l` is the lower face of slab
`l + 1`.  If the validator reports no error, every slab lies in
`[-moduleThickness/2, moduleThickness/2 + 1e-5)`; if the accumulated thickness
is at most the module thickness, every slab lies in
`[-moduleThickness/2, moduleThickness/2]`. -/
theorem slabs_tile_depth_axis (S : Services) (a : Args) (k m : Nat)
    (hm : MotherOK S a k m) (hl : LayersOK a) (hnn : ∀ t ∈ a.layerThick, 0 ≤ t) :
    ∃ v, variant S a k m = .ok v ∧
      (0 < a.layerType.length → slabLo a v 0 = -a.thick / 2) ∧
      (∀ l, l + 1 < a.layerType.length → slabHi a v l = slabLo a v (l + 1)) ∧
      (∀ l, l < a.layerType.length → slabLo a v l ≤ slabHi a v l) ∧
      ((∀ x y, Diag.error x y ∉ v.diag) → ∀ l, l < a.layerType.length →
        -a.thick / 2 ≤ slabLo a v l ∧ slabHi a v l < a.thick / 2 + 0.00001) ∧
      (v.final.thickTot ≤ a.thick → ∀ l, l < a.layerType.length →
        -a.thick / 2 ≤ slabLo a v l ∧ slabHi a v l ≤ a.thick / 2) := by
  obtain ⟨v, hv, hdiag, htot, hslab⟩ := variant_slabs S a k m hm hl
  have hf := thickOf_nonneg a hnn
  have hlo : ∀ l, l < a.layerType.length → -a.thick / 2 ≤ slabLo a v l := by
    intro l hlt
    rw [(hslab l hlt).1]
    have := prefix_sum_nonneg (thickOf a) hf (a.layerType.map Int.toNat) l
    linarith
  have hhi : ∀ l, l < a.layerType.length →
      slabHi a v l ≤ -a.thick / 2 + v.final.thickTot := by
    intro l hlt
    rw [(hslab l hlt).2, htot]
    have := prefix_sum_le_total (thickOf a) hf (a.layerType.map Int.toNat) (l + 1)
    linarith
  refine ⟨v, hv, ?_, ?_, ?_, ?_, ?_⟩
  · intro h0
    rw [(hslab 0 h0).1]
    simp
  · intro l hlt
    rw [(hslab l (by omega)).2, (hslab (l + 1) hlt).1]
  · intro l hlt
    have hlt' : l < (a.layerType.map Int.toNat).length := by simpa using hlt
    rw [(hslab l hlt).1, (hslab l hlt).2, prefix_sum_succ _ _ l hlt']
    have := hf ((a.layerType.map Int.toNat).getD l 0)
    linarith
  · intro hnoerr l hlt
    have hne : a.layerType ≠ [] := by
      intro h; rw [h] at hlt; exact absurd hlt (by simp)
    have herr := (validate_cases v.final.thickTot a.thick a.layerType hne).2.2.1
    have hlt2 : v.final.thickTot < a.thick + 0.00001 := by
      by_contra hcon
      have : validate a.thick v.final.thickTot a.layerType =
          [Diag.error a.thick v.final.thickTot] := herr.mpr (not_lt.mp hcon)
      apply hnoerr a.thick v.final.thickTot
      rw [hdiag, this]
      exact List.mem_singleton.mpr rfl
    have := hhi l hlt
    exact ⟨hlo l hlt, by linarith⟩
  · intro hle l hlt
    have := hhi l hlt
    exact ⟨hlo l hlt, by linarith⟩

/-- Witness of C17 on scenario A: the slabs are `[-0.5, -0.1]` and `[-0.1, 0.5]`,
the validator reports nothing, and both slabs lie inside the mother. -/
theorem slabs_tile_depth_axis_witness :
    MotherOK demoServices scenarioA 0 0 ∧ LayersOK scenarioA ∧
    (∀ t ∈ scenarioA.layerThick, 0 ≤ t) ∧
    ∃ v, variant demoServices scenarioA 0 0 = .ok v ∧
      slabLo scenarioA v 0 = -scenarioA.thick / 2 ∧
      slabHi scenarioA v 0 = slabLo scenarioA v 1 := by
  have hnn : ∀ t ∈ scenarioA.layerThick, 0 ≤ t := by
    intro t ht
    simp only [scenarioA, List.mem_cons, List.mem_singleton, List.not_mem_nil, or_false] at ht
    rcases ht with rfl | rfl <;> norm_num
  refine ⟨motherOK_demo_scenarioA, layersOK_scenarioA, hnn, ?_⟩
  obtain ⟨v, hv, h0, h1, _⟩ := slabs_tile_depth_axis demoServices scenarioA 0 0
    motherOK_demo_scenarioA layersOK_scenarioA hnn
  exact ⟨v, hv, h0 (by decide), h1 0 (by decide)⟩

end HGCalPassivePartial
